import Mathlib

/-!
Verification of the todo-app task dependency and lifecycle engine.

Shallow embedding of the classes in `src/todo_type.py` (Priority, ToDo),
`src/core/todo_manager.py` (ToDoManager) and `src/core/automatic_todo.py`
(AutomaticToDo).  Conventions used throughout:

* Calendar dates (`date_type.Date`) are modeled as integers counting days:
  the source's `Date` is a Gregorian year/month/day triple with total
  ordering, `+ days`, `- days` and `date - date -> day count`, which is
  order- and arithmetic-isomorphic to a day number in ℤ.
* Python object references are modeled by an association list from task ids
  to task records (`ToDoManager.todos`); mutation becomes functional update.
* Exceptions become `Except` / `Option` error results; an operation that
  raises before mutating returns the unchanged state together with the error.
* Recursive traversals that the source bounds with `visited` sets are
  modeled with an explicit fuel parameter plus the visited list; fuel is
  chosen large enough, and the lemmas prove it is never exhausted.
-/

set_option autoImplicit false

/-- Error values corresponding to the Python exceptions raised by the
source (`ValueError`, `StopIteration`, `TypeError`, `CategoryError`,
`TagError`, `DeadlineError`). -/
inductive PyErr where
  | valueError
  | stopIteration
  | typeError
  | categoryError
  | tagError
  | deadlineError
  deriving Repr, DecidableEq

/-- Errors raised by `ToDo.add_dependency` (all are `DependancyError` in the
source; we distinguish them by their reason string). -/
inductive DepErr where
  | selfDependency
  | circularReference
  | alreadyHasParent
  deriving Repr, DecidableEq

/-- `Priority.ALLOWED_PRIORITIES` from `src/todo_type.py`. -/
def allowedPriorities : List (String × Int) :=
  [("blocking", 1), ("essential", 2), ("important", 3), ("moderate", 4),
   ("background", 5), ("optional", 6), ("parked", 7)]

/-- `max(self.ALLOWED_PRIORITIES.values())`. -/
def maxPriorityLevel : Int := (allowedPriorities.map Prod.snd).foldl max 1

/-- `min(self.ALLOWED_PRIORITIES.values())`. -/
def minPriorityLevel : Int := (allowedPriorities.map Prod.snd).foldl min 1

/-- A `Priority` value: textual name plus numeric level. -/
structure Priority where
  name : String
  level : Int
  deriving Repr, DecidableEq

/-- `Priority.__init__`: validates the name against the allowed set and
assigns the corresponding numeric level; raises `ValueError` otherwise. -/
def mkPriority (name : String) : Except PyErr Priority :=
  match allowedPriorities.find? (fun kv => kv.1 = name) with
  | some kv => .ok ⟨name, kv.2⟩
  | none => .error .valueError

/-- `Priority.__add__`: checks the upper bound only, then looks the new
level up by value (`next(k for k, v in ... if v == new_level)`); an
exhausted generator raises `StopIteration`, modeled here as that error. -/
def Priority.addInt (p : Priority) (value : Int) : Except PyErr Priority :=
  let new_level := p.level + value
  if new_level > maxPriorityLevel then .error .valueError
  else
    match allowedPriorities.find? (fun kv => kv.2 = new_level) with
    | some kv => mkPriority kv.1
    | none => .error .stopIteration

/-- `Priority.__sub__`: checks the lower bound only, then looks the new
level up by value; an exhausted generator raises `StopIteration`. -/
def Priority.subInt (p : Priority) (value : Int) : Except PyErr Priority :=
  let new_level := p.level - value
  if new_level < minPriorityLevel then .error .valueError
  else
    match allowedPriorities.find? (fun kv => kv.2 = new_level) with
    | some kv => mkPriority kv.1
    | none => .error .stopIteration

/-- `ToDo.categories` from `src/todo_type.py`. -/
def categories : List String :=
  ["Philosophy", "University", "Fraunhofer", "Sport", "Band", "Reading",
   "Room", "Financial", "Life"]

/-- Task identifiers (the source uses UUID strings; any infinite type with
decidable equality works, we use ℕ and generate fresh ids by counting). -/
abbrev TaskId := Nat

/-- The mutable attributes of a `ToDo` object.  `dependencies` and
`dependancy_of` store the ids of the referenced task objects. -/
structure ToDo where
  title : String
  category : String
  description : Option String
  priority : Priority
  created_at : Int
  deadline : Int
  in_progress : Bool
  done : Bool
  completed_at : Option Int
  tags : List String
  est_time : Option Int
  actual_time : Option Int
  dependencies : List TaskId
  dependancy_of : List TaskId
  is_project : Bool
  overdue : Bool
  deriving Repr, DecidableEq

/-- `ToDo.__init__` (lines 302-353 of `src/todo_type.py`): validates the
category against the closed set, checks the deadline (only when the
`created_at` argument equals today; comparing `None` with a `Date` is
`False` in the source), validates tags against category names, defaults
the priority to parked and the deadline to tomorrow, and always starts
with `in_progress = False`.  `today` stands for `Date.today()`. -/
def mkToDo (today : Int) (title category : String) (description : Option String)
    (priority : Option Priority) (created_at : Option Int) (deadline : Option Int)
    (done : Bool) (completed_at : Option Int) (tags : Option (List String))
    (est_time actual_time : Option Int) (is_project : Bool) :
    Except PyErr ToDo :=
  if category ∉ categories then .error .categoryError
  else if created_at = some today ∧ deadline = none then .error .typeError
  else if created_at = some today ∧ (deadline.getD (today + 1)) < today then
    .error .deadlineError
  else if (tags.getD []).any (fun tag => tag ∈ categories) then .error .tagError
  else
    let dl := deadline.getD (today + 1)
    .ok {
      title := title
      category := category
      description := description
      priority := priority.getD ⟨"parked", 7⟩
      created_at := created_at.getD today
      deadline := dl
      in_progress := false
      done := done
      completed_at := completed_at
      tags := tags.getD []
      est_time := est_time
      actual_time := actual_time
      dependencies := []
      dependancy_of := []
      is_project := is_project
      overdue := decide (dl < today) }

/-- `ToDo.mark_done` (task-local part): only acts when the task is not done
and unblocked; the unblocked check is supplied by the caller because it
reads the dependency objects. -/
def todoMarkDone (t : ToDo) (unblocked : Bool) (actual : Option Int)
    (today : Int) : ToDo :=
  if !t.done && unblocked then
    { t with done := true, completed_at := some today, actual_time := actual,
             in_progress := false }
  else t

/-- `ToDo.mark_undone` (lines 420-426): guarded by `if self.done`. -/
def todoMarkUndone (t : ToDo) : ToDo :=
  if t.done then
    { t with done := false, completed_at := none, actual_time := none,
             in_progress := false }
  else t

/-- The manager state: the `todos` collection as an association list in
insertion order, plus a counter for generating fresh ids. -/
structure ToDoManager where
  todos : List (TaskId × ToDo)
  nextId : TaskId
  deriving Repr, DecidableEq

/-- The ids of the managed tasks, in list order. -/
def ids (m : ToDoManager) : List TaskId := m.todos.map Prod.fst

/-- A placeholder task; `getTask` never dereferences a missing id in the
states the theorems speak about (the graphs are closed). -/
def defaultToDo : ToDo :=
  { title := "", category := "Life", description := none
    priority := ⟨"parked", 7⟩, created_at := 0, deadline := 0
    in_progress := false, done := false, completed_at := none
    tags := [], est_time := none, actual_time := none
    dependencies := [], dependancy_of := [], is_project := false
    overdue := false }

/-- Dereference a task id (Python: following the object reference). -/
def getTask (m : ToDoManager) (i : TaskId) : ToDo :=
  ((m.todos.find? (fun p => p.1 = i)).map Prod.snd).getD defaultToDo

/-- Replace the task stored under an id (Python: in-place mutation of the
referenced object). -/
def setTask (m : ToDoManager) (i : TaskId) (t : ToDo) : ToDoManager :=
  { m with todos := m.todos.map (fun p => if p.1 = i then (p.1, t) else p) }

/-- `ToDo.is_unblocked`: every dependency is done (vacuously true when
there are none). -/
def is_unblocked (m : ToDoManager) (i : TaskId) : Bool :=
  (getTask m i).dependencies.all (fun d => (getTask m d).done)

/-- `ToDo.mark_done` on the task stored under `i`. -/
def applyMarkDone (m : ToDoManager) (i : TaskId) (actual : Option Int)
    (today : Int) : ToDoManager :=
  setTask m i (todoMarkDone (getTask m i) (is_unblocked m i) actual today)

/-- `ToDo.mark_undone` on the task stored under `i`. -/
def applyMarkUndone (m : ToDoManager) (i : TaskId) : ToDoManager :=
  setTask m i (todoMarkUndone (getTask m i))

/-- Worklist step of `ToDo.depends_on` (lines 577-589): a stack of tasks to
explore, a visited list, and the searched-for task `other`.  Python pops
from the end of the list and extends with the dependencies, which is the
LIFO discipline modeled here with the stack head as top of stack. -/
def dependsOnAux (m : ToDoManager) (other : TaskId) :
    Nat → List TaskId → List TaskId → Bool
  | 0, _, _ => false
  | _ + 1, [], _ => false
  | fuel + 1, c :: rest, visited =>
    if c ∈ visited then dependsOnAux m other fuel rest visited
    else if other ∈ (getTask m c).dependencies then true
    else
      dependsOnAux m other fuel
        ((getTask m c).dependencies.reverse ++ rest) (c :: visited)

/-- Total number of dependency edges; used to size the DFS fuel. -/
def totalDeps (m : ToDoManager) : Nat :=
  (m.todos.map (fun p => p.2.dependencies.length)).sum

/-- `ToDo.depends_on`: True iff `other` is reachable from `self` (at least
one edge) via `dependencies`. -/
def depends_on (m : ToDoManager) (self other : TaskId) : Bool :=
  dependsOnAux m other (totalDeps m + 2) [self] []

/-- `ToDo.add_dependency` (lines 476-496), with `self = parent` and
`task = child`: self-reference, cycle and single-parent checks in source
order; on the success path the edge is appended in both directions, and
an already-present edge is a silent no-op.  An exception leaves the state
unchanged, so errors return the entry state. -/
def add_dependency (m : ToDoManager) (parent child : TaskId) :
    Option DepErr × ToDoManager :=
  if child = parent then (some .selfDependency, m)
  else if depends_on m child parent then (some .circularReference, m)
  else if (getTask m child).dependancy_of ≠ [] then (some .alreadyHasParent, m)
  else if child ∈ (getTask m parent).dependencies then (none, m)
  else
    let m := setTask m parent
      { getTask m parent with
        dependencies := (getTask m parent).dependencies ++ [child] }
    let m := setTask m child
      { getTask m child with
        dependancy_of := (getTask m child).dependancy_of ++ [parent] }
    (none, m)

/-- `sum(dep.actual_time or 0 for dep in parent.dependencies)`. -/
def sumActual (m : ToDoManager) (i : TaskId) : Int :=
  ((getTask m i).dependencies.map
    (fun d => ((getTask m d).actual_time).getD 0)).foldl (· + ·) 0

/-- `ToDoManager._mark_done_recursive` (lines 318-335): guarded by the
visited set, marks the task, then walks the parents, marking each parent
project that is unblocked and recursing into it with the summed time. -/
def mdRec (today : Int) :
    Nat → ToDoManager → TaskId → Option Int → List TaskId →
    ToDoManager × List TaskId
  | 0, m, _, _, visited => (m, visited)
  | fuel + 1, m, i, actual, visited =>
    if i ∈ visited then (m, visited)
    else
      let m1 := applyMarkDone m i actual today
      ((getTask m1 i).dependancy_of).foldl
        (fun acc p =>
          if (getTask acc.1 p).is_project && is_unblocked acc.1 p then
            let total := sumActual acc.1 p
            mdRec today fuel (applyMarkDone acc.1 p (some total) today) p
              (some total) acc.2
          else acc)
        (m1, i :: visited)

/-- `ToDoManager._mark_undone_recursive` (lines 349-364): guarded by the
visited set, reverts the task, then walks the parents, reverting each
parent that is done or in progress and recursing into it. -/
def muRec :
    Nat → ToDoManager → TaskId → List TaskId → ToDoManager × List TaskId
  | 0, m, _, visited => (m, visited)
  | fuel + 1, m, i, visited =>
    if i ∈ visited then (m, visited)
    else
      let m1 := applyMarkUndone m i
      ((getTask m1 i).dependancy_of).foldl
        (fun acc p =>
          if (getTask acc.1 p).done || (getTask acc.1 p).in_progress then
            muRec fuel (applyMarkUndone acc.1 p) p acc.2
          else acc)
        (m1, i :: visited)

/-- Fuel bound used by the manager entry points: the visited set makes the
recursion depth of the cascades at most the number of tasks. -/
def bigFuel (m : ToDoManager) : Nat := m.todos.length + 1

/-- `ToDoManager.mark_done` for a single id (`get_todo` by id returns the
first task with that id, or raises `ValueError`). -/
def manager_mark_done (today : Int) (m : ToDoManager) (i : TaskId)
    (actual : Option Int) : Except PyErr ToDoManager :=
  if i ∈ ids m then .ok (mdRec today (bigFuel m) m i actual []).1
  else .error .valueError

/-- `ToDoManager.mark_undone` for a single id. -/
def manager_mark_undone (m : ToDoManager) (i : TaskId) :
    Except PyErr ToDoManager :=
  if i ∈ ids m then .ok (muRec (bigFuel m) m i []).1
  else .error .valueError

/-- `ToDoManager.update_todo_states` (lines 372-422): one pass over the
collection; a done-but-blocked task is reverted through the undo cascade,
an undone unblocked project is completed through the completion cascade.
The iteration order is the `todos` list at entry (the cascades neither add
nor remove tasks), and the per-task lookup by id inside `mark_undone` /
`mark_done` resolves to the task itself. -/
def update_todo_states (today : Int) (m : ToDoManager) : ToDoManager :=
  (m.todos.map Prod.fst).foldl
    (fun m i =>
      if (getTask m i).done && !is_unblocked m i then
        (muRec (bigFuel m) m i []).1
      else if !(getTask m i).done && (getTask m i).is_project &&
          is_unblocked m i then
        (mdRec today (bigFuel m) m i none []).1
      else m)
    m

/-- `ToDoManager.add_todo` for a freshly constructed task: appends it when
not already present (`ToDo.__eq__` compares id and title) and runs the
reconciliation pass.  Returns the new state and the id given to the task. -/
def add_todo_new (today : Int) (m : ToDoManager) (t : ToDo) :
    ToDoManager × TaskId :=
  let i := m.nextId
  if m.todos.any (fun p => p.1 = i && p.2.title = t.title) then (m, i)
  else
    let m1 : ToDoManager := { todos := m.todos ++ [(i, t)], nextId := i + 1 }
    (update_todo_states today m1, i)

/-- Attribute assignments expressible through `ToDoManager.update_todo`'s
reflective `setattr` loop, restricted to the fields this model carries
(every one of these names passes the `hasattr` check in the source). -/
inductive AttrSet where
  | setCategory (v : String)
  | setTags (v : List String)
  | setDone (v : Bool)
  | setDeadline (v : Int)
  deriving Repr, DecidableEq

/-- A single `setattr(todo, key, value)` step. -/
def applyAttr (t : ToDo) (a : AttrSet) : ToDo :=
  match a with
  | .setCategory v => { t with category := v }
  | .setTags v => { t with tags := v }
  | .setDone v => { t with done := v }
  | .setDeadline v => { t with deadline := v }

/-- `ToDoManager.update_todo` (lines 271-310) looked up by id: finds the
task, then assigns each attribute without any value validation. -/
def update_todo (m : ToDoManager) (i : TaskId) (attrs : List AttrSet) :
    Except PyErr ToDoManager :=
  match m.todos.find? (fun p => p.1 = i) with
  | none => .error .valueError
  | some pr => .ok (setTask m i (attrs.foldl applyAttr pr.2))

/-- `'{n}'`-substitution in `self.title_pattern.format(n=n)`. -/
def formatTitle (pattern : String) (n : Nat) : String :=
  pattern.replace "{n}" (toString n)

/-- The state of an `AutomaticToDo` blueprint (`src/core/automatic_todo.py`,
lines 14-41).  Subtask templates are stored as `(task, offset_days)` pairs;
`generated_todos` records the ids of the generated parent tasks. -/
structure Blueprint where
  title_pattern : String
  category : String
  interval_days : Int
  start_date : Int
  end_date : Option Int
  priority : Priority
  description : Option String
  tags : List String
  template_subtasks : List (ToDo × Int)
  generated_todos : List TaskId
  last_generated_date : Option Int
  active : Bool
  deriving Repr, DecidableEq

/-- Modelled from the spec: `ToDo.clone` is called by
`generate_due_tasks` (line 84) but its definition is absent from the
sources under `src/`; per the spec it clones "the template into a fresh
Task with no inherited edges", i.e. a copy of the template's attributes
with empty `dependencies` and `dependancy_of` (a fresh id is assigned when
the clone is inserted into the collection). -/
def cloneTask (t : ToDo) : ToDo :=
  { t with dependencies := [], dependancy_of := [] }

/-- One occurrence's subtask generation (lines 83-92): clone each template,
clear its dependencies, point its back-reference list directly at the
parent, set its deadline from the parent's deadline plus the offset,
insert it, and append it to the parent's dependency list. -/
def genSubtasks (today : Int) (pid : TaskId) (deadline : Int)
    (tmpl : List (ToDo × Int)) (m : ToDoManager) : ToDoManager :=
  tmpl.foldl
    (fun m sub =>
      let sc := cloneTask sub.1
      let sc := { sc with dependencies := [], dependancy_of := [pid],
                          deadline := deadline + sub.2 }
      let mp := add_todo_new today m sc
      setTask mp.1 pid
        { getTask mp.1 pid with
          dependencies := (getTask mp.1 pid).dependencies ++ [mp.2] })
    m

/-- The spec's version of the subtask generation: identical except that the
clone keeps its empty back-reference list and the edge to the parent is
created through the sanctioned `add_dependency` operation after insertion. -/
def genSubtasksSanctioned (today : Int) (pid : TaskId) (deadline : Int)
    (tmpl : List (ToDo × Int)) (m : ToDoManager) : ToDoManager :=
  tmpl.foldl
    (fun m sub =>
      let sc := cloneTask sub.1
      let sc := { sc with deadline := deadline + sub.2 }
      let mp := add_todo_new today m sc
      (add_dependency mp.1 pid mp.2).2)
    m

/-- The `while (current_date + interval) <= today` loop of
`generate_due_tasks` (lines 64-95), parameterized by the subtask step so
the source's behavior and the spec's sanctioned behavior share the loop.
Returns the possible error (a raised constructor exception aborts the
call), the manager, the blueprint, the final `current_date` and the list
of generated parent ids. -/
def genLoop (subgen : Int → TaskId → Int → List (ToDo × Int) → ToDoManager →
    ToDoManager) (today : Int) :
    Nat → ToDoManager → Blueprint → Int → List TaskId →
    Option PyErr × ToDoManager × Blueprint × Int × List TaskId
  | 0, m, bp, current, acc => (none, m, bp, current, acc)
  | fuel + 1, m, bp, current, acc =>
    if current + bp.interval_days ≤ today then
      let current := current + bp.interval_days
      let n := bp.generated_todos.length + 1
      let title := formatTitle bp.title_pattern n
      let deadline := current + bp.interval_days
      match mkToDo today title bp.category bp.description (some bp.priority)
          none (some deadline) false none (some bp.tags) none none false with
      | .error e => (some e, m, bp, current, acc)
      | .ok parent =>
        let mp := add_todo_new today m parent
        let pid := mp.2
        let m := subgen today pid deadline bp.template_subtasks mp.1
        let bp := { bp with generated_todos := bp.generated_todos ++ [pid] }
        genLoop subgen today fuel m bp current (acc ++ [pid])
    else (none, m, bp, current, acc)

/-- Fuel for the generation loop: with a positive interval the loop runs at
most `today - last_date` times. -/
def genFuel (last today : Int) : Nat := (today - last).toNat + 1

/-- `AutomaticToDo.generate_due_tasks` (lines 54-99), parameterized by the
subtask step: early exit when inactive or before the start date, the
catch-up loop from the cursor (or `start_date - interval`), and the cursor
update only when at least one occurrence was produced. -/
def genDueTasksWith (subgen : Int → TaskId → Int → List (ToDo × Int) →
    ToDoManager → ToDoManager) (m : ToDoManager) (bp : Blueprint)
    (today : Int) :
    Option PyErr × ToDoManager × Blueprint × List TaskId :=
  if !bp.active || today < bp.start_date then (none, m, bp, [])
  else
    let last := bp.last_generated_date.getD (bp.start_date - bp.interval_days)
    let r := genLoop subgen today (genFuel last today) m bp last []
    if r.2.2.2.2 ≠ [] ∧ r.1 = none then
      (r.1, r.2.1,
        { r.2.2.1 with last_generated_date := some r.2.2.2.1 }, r.2.2.2.2)
    else (r.1, r.2.1, r.2.2.1, r.2.2.2.2)

/-- `AutomaticToDo.generate_due_tasks` as written in the source. -/
def generate_due_tasks (m : ToDoManager) (bp : Blueprint) (today : Int) :
    Option PyErr × ToDoManager × Blueprint × List TaskId :=
  genDueTasksWith genSubtasks m bp today

/-- `generate_due_tasks` as the spec words it, linking each clone to its
parent through `add_dependency`. -/
def generate_due_tasks_sanctioned (m : ToDoManager) (bp : Blueprint)
    (today : Int) :
    Option PyErr × ToDoManager × Blueprint × List TaskId :=
  genDueTasksWith genSubtasksSanctioned m bp today

/-! ### Priority arithmetic (claim C9) -/

theorem maxPriorityLevel_eq : maxPriorityLevel = 7 := by decide

theorem minPriorityLevel_eq : minPriorityLevel = 1 := by decide

/-- The name the generator `next(k for k, v in ... if v == new_level)`
produces for a level (junk outside 1..7). -/
def levelName (l : Int) : String :=
  ((allowedPriorities.find? (fun kv => kv.2 = l)).map Prod.fst).getD ""

/-- Every level between 1 and 7 has a name, and revalidating that name in
the `Priority` constructor reproduces the level. -/
theorem findLevel_inBounds (l : Int) (h1 : 1 ≤ l) (h2 : l ≤ 7) :
    allowedPriorities.find? (fun kv => kv.2 = l) = some (levelName l, l) ∧
      mkPriority (levelName l) = .ok ⟨levelName l, l⟩ := by
  interval_cases l <;> exact ⟨rfl, rfl⟩

/-- No allowed priority has a level outside 1..7. -/
theorem findLevel_outOfBounds (l : Int) (h : l < 1 ∨ 7 < l) :
    allowedPriorities.find? (fun kv => kv.2 = l) = none := by
  rw [List.find?_eq_none]
  intro kv hkv
  fin_cases hkv <;> simp <;> omega

/-- C9, counterexample: `Priority("blocking") + (-1)` produces level 0,
which passes the upper-bound check and then exhausts the name-lookup
generator: the source raises `StopIteration`, not the out-of-range
`ValueError` the claim requires for every out-of-bounds result. -/
theorem c9_priority_arith_counterexample :
    Priority.addInt ⟨"blocking", 1⟩ (-1) = .error PyErr.stopIteration ∧
      Priority.addInt ⟨"blocking", 1⟩ (-1) ≠ .error PyErr.valueError := by
  have h : Priority.addInt ⟨"blocking", 1⟩ (-1) = .error PyErr.stopIteration :=
    rfl
  exact ⟨h, by rw [h]; simp⟩

/-- C9, amended: `+ n` and `- n` return the shifted priority when the
resulting level stays within 1..7; `+ n` raises the out-of-range
`ValueError` only when the result exceeds 7 and raises `StopIteration`
when it falls below 1 (e.g. `+` with a negative `n`); symmetrically `- n`
raises `ValueError` only below 1 and `StopIteration` above 7. -/
theorem c9_priority_arith_amended (p : Priority) (n : Int) :
    ((1 ≤ p.level + n ∧ p.level + n ≤ 7) →
      ∃ q, p.addInt n = .ok q ∧ q.level = p.level + n ∧
        (q.name, q.level) ∈ allowedPriorities) ∧
    (7 < p.level + n → p.addInt n = .error PyErr.valueError) ∧
    (p.level + n < 1 → p.addInt n = .error PyErr.stopIteration) ∧
    ((1 ≤ p.level - n ∧ p.level - n ≤ 7) →
      ∃ q, p.subInt n = .ok q ∧ q.level = p.level - n ∧
        (q.name, q.level) ∈ allowedPriorities) ∧
    (p.level - n < 1 → p.subInt n = .error PyErr.valueError) ∧
    (7 < p.level - n → p.subInt n = .error PyErr.stopIteration) := by
  refine ⟨?_, ?_, ?_, ?_, ?_, ?_⟩
  · rintro ⟨h1, h2⟩
    obtain ⟨hf, hmk⟩ := findLevel_inBounds (p.level + n) h1 h2
    unfold Priority.addInt
    rw [maxPriorityLevel_eq, if_neg (by omega), hf]
    exact ⟨⟨levelName (p.level + n), p.level + n⟩, hmk, rfl,
      List.mem_of_find?_eq_some hf⟩
  · intro h
    unfold Priority.addInt
    rw [maxPriorityLevel_eq, if_pos (by omega)]
  · intro h
    unfold Priority.addInt
    rw [maxPriorityLevel_eq, if_neg (by omega),
      findLevel_outOfBounds (p.level + n) (Or.inl h)]
  · rintro ⟨h1, h2⟩
    obtain ⟨hf, hmk⟩ := findLevel_inBounds (p.level - n) h1 h2
    unfold Priority.subInt
    rw [minPriorityLevel_eq, if_neg (by omega), hf]
    exact ⟨⟨levelName (p.level - n), p.level - n⟩, hmk, rfl,
      List.mem_of_find?_eq_some hf⟩
  · intro h
    unfold Priority.subInt
    rw [minPriorityLevel_eq, if_pos (by omega)]
  · intro h
    unfold Priority.subInt
    rw [minPriorityLevel_eq, if_neg (by omega),
      findLevel_outOfBounds (p.level - n) (Or.inr h)]

/-- C9, witness for the amended theorem at concrete inputs
(`important + 2 = background`, overflow and underflow on both sides). -/
theorem c9_priority_arith_amended_witness :
    (∃ q, Priority.addInt ⟨"important", 3⟩ 2 = .ok q ∧ q.level = 3 + 2 ∧
      (q.name, q.level) ∈ allowedPriorities) ∧
    Priority.addInt ⟨"important", 3⟩ 5 = .error PyErr.valueError ∧
    Priority.subInt ⟨"important", 3⟩ 5 = .error PyErr.valueError ∧
    Priority.subInt ⟨"important", 3⟩ (-5) = .error PyErr.stopIteration := by
  refine ⟨(c9_priority_arith_amended ⟨"important", 3⟩ 2).1 (by norm_num),
    (c9_priority_arith_amended ⟨"important", 3⟩ 5).2.1 (by norm_num),
    (c9_priority_arith_amended ⟨"important", 3⟩ 5).2.2.2.2.1 (by norm_num),
    (c9_priority_arith_amended ⟨"important", 3⟩ (-5)).2.2.2.2.2 (by norm_num)⟩

/-! ### `mark_undone` semantics (claim C3) -/

/-- A task that is open but in progress. -/
def tC3 : ToDo := { defaultToDo with in_progress := true }

/-- C3, counterexample: `mark_undone` on a task with `done = false` and
`in_progress = true` leaves `in_progress` set, because the whole body is
guarded by `if self.done`; the claim requires it to be cleared
unconditionally. -/
theorem c3_mark_undone_counterexample :
    tC3.done = false ∧ tC3.in_progress = true ∧
      (todoMarkUndone tC3).in_progress = true := by
  exact ⟨rfl, rfl, rfl⟩

/-- C3, amended: `mark_undone` is guarded by `done`: on a done task it
sets `done = false` and clears `completed_at`, `actual_time` and
`in_progress`; on a task that is not done it is a no-op (in particular
`in_progress` is retained). -/
theorem c3_mark_undone_amended (t : ToDo) :
    (t.done = true →
      todoMarkUndone t =
        { t with done := false, completed_at := none, actual_time := none,
                 in_progress := false }) ∧
    (t.done = false → todoMarkUndone t = t) := by
  constructor <;> intro h <;> simp [todoMarkUndone, h]

/-- C3, witness for the amended theorem: both branches at concrete tasks. -/
theorem c3_mark_undone_amended_witness :
    (todoMarkUndone { defaultToDo with done := true } =
      { defaultToDo with done := false, completed_at := none,
                         actual_time := none, in_progress := false }) ∧
    todoMarkUndone tC3 = tC3 :=
  ⟨(c3_mark_undone_amended { defaultToDo with done := true }).1 rfl,
   (c3_mark_undone_amended tC3).2 rfl⟩

/-! ### `add_dependency` on an existing edge (claim C2) -/

/-- Two tasks with the edge `0 → 1` already present in both directions. -/
def mC2 : ToDoManager :=
  { todos :=
      [(0, { defaultToDo with title := "parent", dependencies := [1] }),
       (1, { defaultToDo with title := "child", dependancy_of := [0] })],
    nextId := 2 }

/-- C2, counterexample: re-adding the existing edge `0 → 1` raises
`DependancyError` ("already a dependency of another task") instead of
being the idempotent no-op the claim describes: the `task.dependancy_of`
check fires before the `task not in self.dependencies` no-op branch is
reached. -/
theorem c2_add_dependency_counterexample :
    (add_dependency mC2 0 1).1 = some DepErr.alreadyHasParent := by
  rfl

/-- C2, amended: calling `add_dependency(parent, child)` when the edge
`parent → child` already exists raises a `DependancyError` (the
single-parent check, or in degenerate cyclic states the circularity check,
fires first) rather than silently succeeding; the dependency and dependant
lists of both tasks are left unchanged because the exception is raised
before any mutation. -/
theorem c2_add_dependency_amended (m : ToDoManager) (parent child : TaskId)
    (hne : child ≠ parent) (hedge : parent ∈ (getTask m child).dependancy_of) :
    ((add_dependency m parent child).1).isSome = true ∧
      (add_dependency m parent child).2 = m := by
  unfold add_dependency
  rw [if_neg hne]
  by_cases hdep : depends_on m child parent
  · rw [if_pos hdep]
    exact ⟨rfl, rfl⟩
  · rw [if_neg hdep,
      if_pos (show (getTask m child).dependancy_of ≠ [] by
        intro h; rw [h] at hedge; exact (List.not_mem_nil parent) hedge)]
    exact ⟨rfl, rfl⟩

/-- C2, witness for the amended theorem at the concrete two-task state. -/
theorem c2_add_dependency_amended_witness :
    ((add_dependency mC2 0 1).1).isSome = true ∧
      (add_dependency mC2 0 1).2 = mC2 :=
  c2_add_dependency_amended mC2 0 1 (by decide) (by decide)

/-! ### `update_todo` performs no value validation (claim C10) -/

/-- A single-task collection holding a valid task. -/
def mC10 : ToDoManager :=
  { todos := [(0, defaultToDo)], nextId := 1 }

/-- C10: `update_todo` assigns attribute values without validation: setting
`category` to a string outside the closed category set succeeds and leaves
the invalid value in place, although the `ToDo` constructor rejects that
same category with `CategoryError`; likewise a tag equal to a category
name is accepted by `update_todo` although the constructor rejects it with
`TagError`. -/
theorem c10_update_todo_no_validation :
    update_todo mC10 0 [AttrSet.setCategory "Quantum"] =
      .ok (setTask mC10 0 { defaultToDo with category := "Quantum" }) ∧
    (getTask (setTask mC10 0 { defaultToDo with category := "Quantum" })
      0).category = "Quantum" ∧
    "Quantum" ∉ categories ∧
    mkToDo 0 "x" "Quantum" none none none (some 1) false none none none none
      false = .error PyErr.categoryError ∧
    update_todo mC10 0 [AttrSet.setTags ["Life"]] =
      .ok (setTask mC10 0 { defaultToDo with tags := ["Life"] }) ∧
    "Life" ∈ categories ∧
    mkToDo 0 "x" "Life" none none none (some 1) false none (some ["Life"])
      none none false = .error PyErr.tagError := by
  refine ⟨rfl, rfl, by decide, rfl, rfl, by decide, rfl⟩

/-! ### Generation scenario: interval 7, start day 0, today day 20
(claim C1) -/

/-- The blueprint of the claim: `interval_days = 7`, `start_date = day 0`,
no prior cursor, no end date, no subtask templates. -/
def bpC1 : Blueprint :=
  { title_pattern := "task {n}", category := "Life", interval_days := 7,
    start_date := 0, end_date := none, priority := ⟨"important", 3⟩,
    description := none, tags := [], template_subtasks := [],
    generated_todos := [], last_generated_date := none, active := true }

/-- An empty collection. -/
def mC1 : ToDoManager := { todos := [], nextId := 0 }

/-- C1, counterexample: with `interval_days = 7`, `start_date = day 0`, no
cursor and `today = day 20`, a single `generate_due_tasks` call produces
three occurrences, not the two the claim states: the loop starts from
`start_date - interval` and therefore emits the occurrences of days 0, 7
and 14 (deadlines 7, 14 and 21). -/
theorem c1_generate_count_counterexample :
    (generate_due_tasks mC1 bpC1 20).2.2.2.length = 3 ∧
      ¬(generate_due_tasks mC1 bpC1 20).2.2.2.length = 2 := by
  decide

/-- C1, amended: the call produces exactly three occurrences — the
occurrences of days 0, 7 and 14 with deadlines 7, 14 and 21 — because the
first generated occurrence falls on `start_date` itself; the cursor
advances to day 14 and no error is raised. -/
theorem c1_generate_count_amended :
    (generate_due_tasks mC1 bpC1 20).2.2.2.length = 3 ∧
      (generate_due_tasks mC1 bpC1 20).2.2.1.last_generated_date = some 14 ∧
      ((generate_due_tasks mC1 bpC1 20).2.1.todos.map
        (fun p => p.2.deadline)) = [7, 14, 21] ∧
      (generate_due_tasks mC1 bpC1 20).1 = none := by
  decide

/-! ### Basic lemmas about the task store -/

theorem ids_setTask (m : ToDoManager) (i : TaskId) (t : ToDo) :
    ids (setTask m i t) = ids m := by
  simp only [ids, setTask, List.map_map]
  refine List.map_congr_left ?_
  intro p _
  by_cases h : p.1 = i <;> simp [h]

theorem nextId_setTask (m : ToDoManager) (i : TaskId) (t : ToDo) :
    (setTask m i t).nextId = m.nextId := rfl

theorem find?_setTask (m : ToDoManager) (i : TaskId) (t : ToDo) (j : TaskId) :
    (setTask m i t).todos.find? (fun p => p.1 = j) =
      (m.todos.find? (fun p => p.1 = j)).map
        (fun p => if p.1 = i then (p.1, t) else p) := by
  simp only [setTask, List.find?_map]
  have hp : ((fun p => decide (p.1 = j)) ∘ fun p : TaskId × ToDo =>
      if p.1 = i then (p.1, t) else p) =
      (fun p : TaskId × ToDo => decide (p.1 = j)) := by
    funext p
    by_cases h : p.1 = i <;> simp [h]
  rw [hp]

theorem getTask_setTask_ne (m : ToDoManager) (i : TaskId) (t : ToDo)
    (j : TaskId) (hne : j ≠ i) : getTask (setTask m i t) j = getTask m j := by
  unfold getTask
  rw [find?_setTask]
  cases hf : m.todos.find? (fun p => p.1 = j) with
  | none => rfl
  | some q =>
    have hq : q.1 = j := by simpa using List.find?_some hf
    simp [hq, hne]

theorem getTask_setTask_eq (m : ToDoManager) (i : TaskId) (t : ToDo)
    (hmem : i ∈ ids m) : getTask (setTask m i t) i = t := by
  unfold getTask
  rw [find?_setTask]
  have : ∃ p ∈ m.todos, p.1 = i := by
    obtain ⟨p, hp, he⟩ := List.mem_map.mp hmem
    exact ⟨p, hp, he⟩
  have hs : (m.todos.find? (fun p => p.1 = i)).isSome := by
    rw [List.find?_isSome]
    obtain ⟨p, hp, he⟩ := this
    exact ⟨p, hp, by simp [he]⟩
  cases hf : m.todos.find? (fun p => p.1 = i) with
  | none => rw [hf] at hs; simp at hs
  | some q =>
    have hq : q.1 = i := by simpa using List.find?_some hf
    simp [hq]

theorem getTask_setTask_missing (m : ToDoManager) (i : TaskId) (t : ToDo)
    (hmem : i ∉ ids m) : getTask (setTask m i t) i = getTask m i := by
  unfold getTask
  rw [find?_setTask]
  cases hf : m.todos.find? (fun p => p.1 = i) with
  | none => rfl
  | some q =>
    exfalso
    apply hmem
    have hq : q.1 = i := by simpa using List.find?_some hf
    exact List.mem_map.mpr ⟨q, List.mem_of_find?_eq_some hf, hq⟩

theorem overwrite_notmem (i : TaskId) (t : ToDo) :
    ∀ l : List (TaskId × ToDo), i ∉ l.map Prod.fst →
      l.map (fun p => if p.1 = i then (p.1, t) else p) = l := by
  intro l hl
  induction l with
  | nil => rfl
  | cons q l ih =>
    simp only [List.map_cons, List.mem_cons, not_or] at hl ⊢
    have hq : ¬(q.1 = i) := fun h => hl.1 h.symm
    rw [if_neg hq, ih hl.2]

theorem setTask_self (m : ToDoManager) (i : TaskId) (h : (ids m).Nodup) :
    setTask m i (getTask m i) = m := by
  suffices hs : m.todos.map
      (fun p => if p.1 = i then (p.1, getTask m i) else p) = m.todos by
    show ({ m with todos := _ } : ToDoManager) = m
    rw [hs]
  unfold getTask
  cases hf : m.todos.find? (fun p => p.1 = i) with
  | none =>
    refine overwrite_notmem i _ m.todos ?_
    intro hmem
    obtain ⟨p, hp, he⟩ := List.mem_map.mp hmem
    have := List.find?_eq_none.mp hf p hp
    simp [he] at this
  | some v =>
    simp only [Option.map_some', Option.getD_some]
    revert h
    have hfind := hf
    clear hf
    revert hfind
    unfold ids
    induction m.todos with
    | nil => intro h; simp at h
    | cons q l ih =>
      intro hfind hnd
      simp only [List.map_cons, List.nodup_cons] at hnd
      by_cases hq : q.1 = i
      · rw [List.find?_cons_of_pos _ (by simp [hq])] at hfind
        injection hfind with hv
        subst hv
        simp only [List.map_cons, if_pos hq]
        rw [show (q.1, q.2) = q from rfl, overwrite_notmem i _ l (by
          rw [hq] at hnd; exact hnd.1)]
      · rw [List.find?_cons_of_neg _ (by simp [hq])] at hfind
        simp only [List.map_cons, if_neg hq]
        rw [ih hfind hnd.2]

/-! ### Completion gating (claim C5) -/

/-- Blocked tasks make their parents blocked too, so the completion
cascade's parent loop never fires when the marked task is itself not done:
every parent's unblocked check sees the undone task. -/
theorem mdFold_noop (today : Int) (fuel : Nat) (m : ToDoManager)
    (vis : List TaskId) (l : List TaskId)
    (h : ∀ p ∈ l, ((getTask m p).is_project && is_unblocked m p) = false) :
    l.foldl
      (fun acc p =>
        if (getTask acc.1 p).is_project && is_unblocked acc.1 p then
          let total := sumActual acc.1 p
          mdRec today fuel (applyMarkDone acc.1 p (some total) today) p
            (some total) acc.2
        else acc)
      (m, vis) = (m, vis) := by
  induction l with
  | nil => rfl
  | cons p l ih =>
    rw [List.foldl_cons]
    have hp := h p (List.mem_cons_self p l)
    simp only [hp, Bool.false_eq_true, if_false]
    exact ih (fun q hq => h q (List.mem_cons_of_mem p hq))

/-- A task's parent is blocked whenever the task is one of its
dependencies and undone. -/
theorem is_unblocked_false_of_undone_dep (m : ToDoManager) (p t : TaskId)
    (hdep : t ∈ (getTask m p).dependencies)
    (hnd : (getTask m t).done = false) : is_unblocked m p = false := by
  unfold is_unblocked
  by_contra h
  have := List.all_eq_true.mp (eq_true_of_ne_false h) t hdep
  rw [hnd] at this
  exact Bool.false_ne_true this

/-- C5, amended: `mark_done(t)` has no effect when `t` is blocked and not
already done: neither `t` nor any other task changes.  (The claim as
stated fails when `t` is blocked but already done — an inconsistent but
reachable state — because the parent loop can still complete a dependant
project; see the counterexample.) -/
theorem c5_mark_done_amended (today : Int) (m : ToDoManager) (t : TaskId)
    (a : Option Int) (hmem : t ∈ ids m) (hnodup : (ids m).Nodup)
    (hmi : ∀ p ∈ (getTask m t).dependancy_of, t ∈ (getTask m p).dependencies)
    (hnd : (getTask m t).done = false) (hbl : is_unblocked m t = false) :
    manager_mark_done today m t a = .ok m := by
  unfold manager_mark_done
  rw [if_pos hmem]
  have hm1 : applyMarkDone m t a today = m := by
    unfold applyMarkDone todoMarkDone
    rw [hbl]
    simp only [Bool.and_false, Bool.false_eq_true, if_false]
    exact setTask_self m t hnodup
  have : mdRec today (bigFuel m) m t a [] = (m, [t]) := by
    show mdRec today (m.todos.length + 1) m t a [] = (m, [t])
    rw [mdRec]
    simp only [List.not_mem_nil, if_false, hm1]
    exact mdFold_noop today m.todos.length m [t] (getTask m t).dependancy_of
      (fun p hp => by
        rw [is_unblocked_false_of_undone_dep m p t (hmi p hp) hnd]
        exact Bool.and_false _)
  rw [this]

/-- Three tasks: 0 is an undone dependency of 1; 1 is done yet blocked (an
inconsistent but reachable state); 2 is an undone project whose only
dependency is 1. -/
def dC5 : ToDo := { defaultToDo with title := "d", dependancy_of := [1] }

/-- The done-yet-blocked middle task. -/
def tC5 : ToDo :=
  { defaultToDo with
    title := "t", done := true, dependencies := [0], dependancy_of := [2] }

/-- The undone project depending only on `tC5`. -/
def pC5 : ToDo :=
  { defaultToDo with
    title := "P", is_project := true, dependencies := [1] }

def mC5 : ToDoManager :=
  { todos := [(0, dC5), (1, tC5), (2, pC5)], nextId := 3 }

/-- C5, counterexample: task 1 is blocked (`is_unblocked` false because
dependency 0 is undone), yet `mark_done(1)` is not a no-op: the parent
loop of `_mark_done_recursive` sees project 2 as unblocked (its only
dependency, task 1, is already done) and marks it done — a dependant of
the blocked task changes state. -/
theorem c5_mark_done_counterexample :
    is_unblocked mC5 1 = false ∧ (getTask mC5 2).done = false ∧
      (getTask (mdRec 100 (bigFuel mC5) mC5 1 none []).1 2).done = true ∧
      manager_mark_done 100 mC5 1 none =
        .ok (mdRec 100 (bigFuel mC5) mC5 1 none []).1 := by
  refine ⟨rfl, rfl, by decide, ?_⟩
  unfold manager_mark_done
  rw [if_pos (by decide)]

/-- C5, witness for the amended theorem: a two-task state where the blocked
task is undone; `mark_done` returns the state unchanged. -/
def tC5w : ToDo :=
  { defaultToDo with title := "t", dependencies := [0] }

def mC5w : ToDoManager :=
  { todos := [(0, dC5), (1, tC5w)], nextId := 2 }

theorem c5_mark_done_amended_witness :
    manager_mark_done 5 mC5w 1 none = .ok mC5w :=
  c5_mark_done_amended 5 mC5w 1 none (by decide) (by decide)
    (by decide) (by decide) (by decide)

/-! ### Acyclicity of `add_dependency` (claim C6) -/

/-- One dependency edge: `b` is a direct dependency of `a`. -/
def depEdge (m : ToDoManager) (a b : TaskId) : Prop :=
  b ∈ (getTask m a).dependencies

theorem getTask_not_mem (m : ToDoManager) (i : TaskId) (h : i ∉ ids m) :
    getTask m i = defaultToDo := by
  unfold getTask
  cases hf : m.todos.find? (fun p => p.1 = i) with
  | none => rfl
  | some q =>
    exfalso
    apply h
    have hq : q.1 = i := by simpa using List.find?_some hf
    exact List.mem_map.mpr ⟨q, List.mem_of_find?_eq_some hf, hq⟩

theorem find?_eq_of_mem_nodup :
    ∀ (l : List (TaskId × ToDo)), (l.map Prod.fst).Nodup →
      ∀ i t, (i, t) ∈ l → l.find? (fun p => p.1 = i) = some (i, t) := by
  intro l
  induction l with
  | nil => intro _ i t h; simp at h
  | cons q l ih =>
    intro hnd i t hmem
    simp only [List.map_cons, List.nodup_cons] at hnd
    rcases List.mem_cons.mp hmem with rfl | hmem'
    · exact List.find?_cons_of_pos _ (by simp)
    · have hne : ¬(q.1 = i) := by
        intro he
        apply hnd.1
        exact he ▸ List.mem_map.mpr ⟨(i, t), hmem', rfl⟩
      rw [List.find?_cons_of_neg _ (by simp [hne])]
      exact ih hnd.2 i t hmem'

theorem getTask_eq_of_mem (m : ToDoManager) (hnodup : (ids m).Nodup)
    {i : TaskId} {t : ToDo} (h : (i, t) ∈ m.todos) : getTask m i = t := by
  unfold getTask
  rw [find?_eq_of_mem_nodup m.todos hnodup i t h]
  rfl

/-- Closedness of the dependency edges: every referenced id is managed. -/
def DepsClosed (m : ToDoManager) : Prop :=
  ∀ p ∈ m.todos, ∀ d ∈ p.2.dependencies, d ∈ ids m

instance decDepsClosed (m : ToDoManager) : Decidable (DepsClosed m) := by
  unfold DepsClosed
  infer_instance

theorem deps_closed_getTask {m : ToDoManager} (hclosed : DepsClosed m)
    (i : TaskId) : ∀ d ∈ (getTask m i).dependencies, d ∈ ids m := by
  unfold getTask
  cases hf : m.todos.find? (fun p => p.1 = i) with
  | none => intro d hd; simp [defaultToDo] at hd
  | some q => exact hclosed q (List.mem_of_find?_eq_some hf)

theorem depEdge_mem_left {m : ToDoManager} {x z : TaskId}
    (h : depEdge m x z) : x ∈ ids m := by
  by_contra hx
  unfold depEdge at h
  rw [getTask_not_mem m x hx] at h
  simp [defaultToDo] at h

/-- Soundness of the worklist search: a `true` answer exhibits a path from
a stack element to a task having `other` among its dependencies. -/
theorem dependsOnAux_sound (m : ToDoManager) (o : TaskId) :
    ∀ (fuel : Nat) (stack vis : List TaskId),
      dependsOnAux m o fuel stack vis = true →
      ∃ x ∈ stack, ∃ y, Relation.ReflTransGen (depEdge m) x y ∧
        o ∈ (getTask m y).dependencies := by
  intro fuel
  induction fuel with
  | zero => intro s v h; simp [dependsOnAux] at h
  | succ fuel ih =>
    intro s v h
    match s with
    | [] => simp [dependsOnAux] at h
    | c :: rest =>
      rw [dependsOnAux] at h
      by_cases hv : c ∈ v
      · rw [if_pos hv] at h
        obtain ⟨x, hx, y, hxy, hy⟩ := ih rest v h
        exact ⟨x, List.mem_cons_of_mem c hx, y, hxy, hy⟩
      · rw [if_neg hv] at h
        by_cases ho : o ∈ (getTask m c).dependencies
        · exact ⟨c, List.mem_cons_self c rest, c, Relation.ReflTransGen.refl, ho⟩
        · rw [if_neg ho] at h
          obtain ⟨x, hx, y, hxy, hy⟩ := ih _ _ h
          rcases List.mem_append.mp hx with hx' | hx'
          · have hcx : depEdge m c x := List.mem_reverse.mp hx'
            exact ⟨c, List.mem_cons_self c rest, y,
              Relation.ReflTransGen.head hcx hxy, hy⟩
          · exact ⟨x, List.mem_cons_of_mem c hx', y, hxy, hy⟩

/-- `depends_on` soundness: a `true` answer means a real path. -/
theorem depends_on_sound {m : ToDoManager} {a b : TaskId}
    (h : depends_on m a b = true) : Relation.TransGen (depEdge m) a b := by
  obtain ⟨x, hx, y, hxy, hy⟩ := dependsOnAux_sound m b _ [a] [] h
  have hxa : x = a := by simpa using hx
  subst hxa
  exact Relation.TransGen.tail' hxy hy

/-- Dependency edges of the not-yet-visited tasks: the decreasing part of
the DFS termination measure. -/
def sumUnvisDeps (m : ToDoManager) (vis : List TaskId) : Nat :=
  (((ids m).filter (fun v => v ∉ vis)).map
    (fun v => (getTask m v).dependencies.length)).sum

theorem sumUnvisDeps_cons (m : ToDoManager) (c : TaskId) (vis : List TaskId)
    (hnodup : (ids m).Nodup) (hc : c ∈ ids m) (hv : c ∉ vis) :
    sumUnvisDeps m (c :: vis) + (getTask m c).dependencies.length =
      sumUnvisDeps m vis := by
  have hfilter : (ids m).filter (fun v => v ∉ c :: vis) =
      ((ids m).filter (fun v => v ∉ vis)).erase c := by
    rw [(hnodup.filter _).erase_eq_filter c, List.filter_filter]
    refine List.filter_congr ?_
    intro v _
    by_cases h1 : v = c <;> by_cases h2 : v ∈ vis <;> simp [h1, h2]
  have hcmem : c ∈ (ids m).filter (fun v => v ∉ vis) :=
    List.mem_filter.mpr ⟨hc, by simp [hv]⟩
  have hperm := List.perm_cons_erase hcmem
  have hsum := (hperm.map (fun v => (getTask m v).dependencies.length)).sum_eq
  unfold sumUnvisDeps
  rw [hfilter, hsum, List.map_cons, List.sum_cons]
  omega

theorem sumUnvisDeps_nil (m : ToDoManager) (hnodup : (ids m).Nodup) :
    sumUnvisDeps m [] = totalDeps m := by
  unfold sumUnvisDeps totalDeps
  have h1 : (ids m).filter (fun v => v ∉ ([] : List TaskId)) = ids m :=
    List.filter_eq_self.mpr (fun a _ => by simp)
  rw [h1]
  show ((m.todos.map Prod.fst).map
    (fun v => (getTask m v).dependencies.length)).sum = _
  rw [List.map_map]
  congr 1
  refine List.map_congr_left ?_
  intro p hp
  show (getTask m p.1).dependencies.length = p.2.dependencies.length
  rw [getTask_eq_of_mem m hnodup (show (p.1, p.2) ∈ m.todos from hp)]

/-- Completeness skeleton of the worklist search: a `false` answer (with
enough fuel) yields a set `V` containing the stack, closed under
dependency edges outside the visited list, in which no task has `other`
as a direct dependency. -/
theorem dependsOnAux_complete (m : ToDoManager) (o : TaskId)
    (hnodup : (ids m).Nodup) (hclosed : DepsClosed m) :
    ∀ (fuel : Nat) (stack vis : List TaskId),
      (∀ x ∈ stack, x ∈ ids m) →
      stack.length + sumUnvisDeps m vis < fuel →
      dependsOnAux m o fuel stack vis = false →
      ∃ V : List TaskId, (∀ x ∈ stack, x ∈ V) ∧ (∀ x ∈ vis, x ∈ V) ∧
        ∀ v ∈ V, v ∉ vis →
          o ∉ (getTask m v).dependencies ∧
          ∀ d ∈ (getTask m v).dependencies, d ∈ V := by
  intro fuel
  induction fuel with
  | zero => intro s v _ hm _; omega
  | succ fuel ih =>
    intro s v hs hm h
    match s with
    | [] =>
      refine ⟨v, by simp, fun x hx => hx, fun x hx hnx => absurd hx hnx⟩
    | c :: rest =>
      have hc : c ∈ ids m := hs c (List.mem_cons_self c rest)
      rw [dependsOnAux] at h
      rw [List.length_cons] at hm
      by_cases hv : c ∈ v
      · rw [if_pos hv] at h
        obtain ⟨V, hV1, hV2, hV3⟩ :=
          ih rest v (fun x hx => hs x (List.mem_cons_of_mem c hx))
            (by omega) h
        refine ⟨V, ?_, hV2, hV3⟩
        intro x hx
        rcases List.mem_cons.mp hx with rfl | hx'
        · exact hV2 x hv
        · exact hV1 x hx'
      · rw [if_neg hv] at h
        by_cases ho : o ∈ (getTask m c).dependencies
        · rw [if_pos ho] at h; exact absurd h (by simp)
        · rw [if_neg ho] at h
          have hmeas : ((getTask m c).dependencies.reverse ++ rest).length +
              sumUnvisDeps m (c :: v) < fuel := by
            have := sumUnvisDeps_cons m c v hnodup hc hv
            rw [List.length_append, List.length_reverse]
            omega
          have hstack' : ∀ x ∈ (getTask m c).dependencies.reverse ++ rest,
              x ∈ ids m := by
            intro x hx
            rcases List.mem_append.mp hx with hx' | hx'
            · exact deps_closed_getTask hclosed c x (List.mem_reverse.mp hx')
            · exact hs x (List.mem_cons_of_mem c hx')
          obtain ⟨V, hV1, hV2, hV3⟩ := ih _ _ hstack' hmeas h
          refine ⟨V, ?_, ?_, ?_⟩
          · intro x hx
            rcases List.mem_cons.mp hx with rfl | hx'
            · exact hV2 x (List.mem_cons_self x v)
            · exact hV1 x (List.mem_append_right _ hx')
          · exact fun x hx => hV2 x (List.mem_cons_of_mem c hx)
          · intro w hw hwv
            by_cases hwc : w = c
            · subst hwc
              exact ⟨ho, fun d hd =>
                hV1 d (List.mem_append_left _ (List.mem_reverse.mpr hd))⟩
            · have hw' : w ∉ c :: v := by
                intro hmem
                rcases List.mem_cons.mp hmem with h' | h'
                · exact hwc h'
                · exact hwv h'
              exact hV3 w hw hw'

/-- `depends_on` completeness: a real path makes the search answer `true`. -/
theorem depends_on_complete (m : ToDoManager) (a b : TaskId)
    (hnodup : (ids m).Nodup) (hclosed : DepsClosed m) (ha : a ∈ ids m)
    (htg : Relation.TransGen (depEdge m) a b) : depends_on m a b = true := by
  by_contra hcon
  rw [Bool.not_eq_true] at hcon
  obtain ⟨V, hV1, hV2, hV3⟩ := dependsOnAux_complete m b hnodup hclosed
    (totalDeps m + 2) [a] []
    (by intro x hx; rw [show x = a by simpa using hx]; exact ha)
    (by rw [List.length_singleton, sumUnvisDeps_nil m hnodup]; omega)
    hcon
  have haV : a ∈ V := hV1 a (List.mem_singleton_self a)
  clear hV1 hV2 hcon ha
  revert haV
  induction htg using Relation.TransGen.head_induction_on with
  | base hr =>
    intro haV
    exact (hV3 _ haV (List.not_mem_nil _)).1 hr
  | ih hr _ ihh =>
    intro haV
    exact ihh ((hV3 _ haV (List.not_mem_nil _)).2 _ hr)

/-- Decomposing reflexive-transitive reachability in a graph extended by
the single edge `p → c`, when `p` is not reachable from `c` in the old
graph: every new-graph path either already existed or passes through the
new edge exactly once. -/
theorem rtg_newEdge (m m' : ToDoManager) (p c : TaskId)
    (hchar : ∀ a b, depEdge m' a b ↔ depEdge m a b ∨ (a = p ∧ b = c))
    (hcp : ¬ Relation.ReflTransGen (depEdge m) c p) :
    ∀ x y, Relation.ReflTransGen (depEdge m') x y →
      Relation.ReflTransGen (depEdge m) x y ∨
        (Relation.ReflTransGen (depEdge m) x p ∧
          Relation.ReflTransGen (depEdge m) c y) := by
  intro x y hxy
  induction hxy using Relation.ReflTransGen.head_induction_on with
  | refl => exact Or.inl Relation.ReflTransGen.refl
  | head hab _ ihc =>
    rcases (hchar _ _).mp hab with he | ⟨rfl, rfl⟩
    · rcases ihc with h1 | ⟨h1, h2⟩
      · exact Or.inl (Relation.ReflTransGen.head he h1)
      · exact Or.inr ⟨Relation.ReflTransGen.head he h1, h2⟩
    · rcases ihc with h1 | ⟨h1, _⟩
      · exact Or.inr ⟨Relation.ReflTransGen.refl, h1⟩
      · exact absurd h1 hcp

/-- Adding the edge `p → c` to a graph with no cycles creates none, when
`p` was not reachable from `c`. -/
theorem no_new_cycle (m m' : ToDoManager) (p c : TaskId)
    (hchar : ∀ a b, depEdge m' a b ↔ depEdge m a b ∨ (a = p ∧ b = c))
    (hcp : ¬ Relation.ReflTransGen (depEdge m) c p)
    (hpre : ∀ x, ¬ Relation.TransGen (depEdge m) x x) :
    ∀ x, ¬ Relation.TransGen (depEdge m') x x := by
  intro x htg
  obtain ⟨z, hxz, hzx⟩ := Relation.TransGen.head'_iff.mp htg
  rcases (hchar x z).mp hxz with he | ⟨rfl, rfl⟩
  · rcases rtg_newEdge m m' p c hchar hcp z x hzx with h1 | ⟨h1, h2⟩
    · exact hpre x (Relation.TransGen.head' he h1)
    · exact hcp (h2.trans (Relation.ReflTransGen.head he h1))
  · rcases rtg_newEdge m m' _ _ hchar hcp _ _ hzx with h1 | ⟨h1, _⟩ <;>
      exact absurd h1 hcp

/-- C6: starting from a state in which `depends_on(x, x)` is false for
every managed task, no call to `add_dependency` — succeeding or failing —
produces a state in which some task depends on itself: the self-reference
and reachability checks preserve acyclicity. -/
theorem c6_add_dependency_acyclic (m : ToDoManager) (parent child : TaskId)
    (hnodup : (ids m).Nodup) (hclosed : DepsClosed m)
    (hp : parent ∈ ids m) (hc : child ∈ ids m)
    (hpre : ∀ x ∈ ids m, depends_on m x x = false) :
    ∀ x ∈ ids (add_dependency m parent child).2,
      depends_on (add_dependency m parent child).2 x x = false := by
  have hpre' : ∀ x, ¬ Relation.TransGen (depEdge m) x x := by
    intro x htg
    have hx : x ∈ ids m := by
      obtain ⟨z, hxz, _⟩ := Relation.TransGen.head'_iff.mp htg
      exact depEdge_mem_left hxz
    have := depends_on_complete m x x hnodup hclosed hx htg
    rw [hpre x hx] at this
    exact Bool.false_ne_true this
  by_cases h1 : child = parent
  · unfold add_dependency
    rw [if_pos h1]
    exact hpre
  by_cases h2 : depends_on m child parent = true
  · unfold add_dependency
    rw [if_neg h1, if_pos h2]
    exact hpre
  by_cases h3 : (getTask m child).dependancy_of ≠ []
  · unfold add_dependency
    rw [if_neg h1, if_neg (by simpa using Bool.not_eq_true _ ▸ h2), if_pos h3]
    exact hpre
  by_cases h4 : child ∈ (getTask m parent).dependencies
  · unfold add_dependency
    rw [if_neg h1, if_neg (by simpa using Bool.not_eq_true _ ▸ h2), if_neg h3,
      if_pos h4]
    exact hpre
  -- success path
  have hsucc : add_dependency m parent child =
      (none,
        setTask (setTask m parent
          { getTask m parent with
            dependencies := (getTask m parent).dependencies ++ [child] })
          child
          { getTask (setTask m parent
              { getTask m parent with
                dependencies := (getTask m parent).dependencies ++ [child] })
              child with
            dependancy_of := (getTask (setTask m parent
              { getTask m parent with
                dependencies :=
                  (getTask m parent).dependencies ++ [child] })
              child).dependancy_of ++ [parent] }) := by
    unfold add_dependency
    rw [if_neg h1, if_neg (by simpa using Bool.not_eq_true _ ▸ h2), if_neg h3,
      if_neg h4]
  rw [hsucc]
  set tp : ToDo :=
    { getTask m parent with
      dependencies := (getTask m parent).dependencies ++ [child] } with htp
  set m1 : ToDoManager := setTask m parent tp with hm1
  set m2 : ToDoManager :=
    setTask m1 child
      { getTask m1 child with
        dependancy_of := (getTask m1 child).dependancy_of ++ [parent] }
    with hm2
  have hids2 : ids m2 = ids m := by rw [hm2, ids_setTask, hm1, ids_setTask]
  have hg1 : getTask m1 parent = tp :=
    hm1 ▸ getTask_setTask_eq m parent tp hp
  have hgc1 : getTask m1 child = getTask m child :=
    hm1 ▸ getTask_setTask_ne m parent tp child h1
  have hg2p : getTask m2 parent = tp := by
    rw [hm2, getTask_setTask_ne _ _ _ _ (fun h => h1 h.symm), hg1]
  have hg2c : getTask m2 child =
      { getTask m1 child with
        dependancy_of := (getTask m1 child).dependancy_of ++ [parent] } := by
    rw [hm2]
    exact getTask_setTask_eq m1 child _ (by rw [hm1, ids_setTask]; exact hc)
  have hg2other : ∀ a, a ≠ parent → a ≠ child → getTask m2 a = getTask m a := by
    intro a hap hac
    rw [hm2, getTask_setTask_ne _ _ _ _ hac, hm1, getTask_setTask_ne _ _ _ _ hap]
  have hchar : ∀ a b, depEdge m2 a b ↔
      depEdge m a b ∨ (a = parent ∧ b = child) := by
    intro a b
    unfold depEdge
    by_cases hap : a = parent
    · subst hap
      rw [hg2p, htp]
      constructor
      · intro h
        rcases List.mem_append.mp h with h' | h'
        · exact Or.inl h'
        · exact Or.inr ⟨rfl, by simpa using h'⟩
      · intro h
        rcases h with h' | ⟨_, rfl⟩
        · exact List.mem_append_left _ h'
        · exact List.mem_append_right _ (List.mem_singleton_self _)
    · by_cases hac : a = child
      · subst hac
        rw [hg2c]
        show b ∈ (getTask m1 a).dependencies ↔ _
        rw [hgc1]
        constructor
        · exact Or.inl
        · intro h
          rcases h with h' | ⟨h', _⟩
          · exact h'
          · exact absurd h' hap
      · rw [hg2other a hap hac]
        constructor
        · exact Or.inl
        · intro h
          rcases h with h' | ⟨h', _⟩
          · exact h'
          · exact absurd h' hap
  have hcp : ¬ Relation.ReflTransGen (depEdge m) child parent := by
    intro hr
    rcases hr.cases_head with heq | ⟨z, hcz, hzp⟩
    · exact h1 heq
    · have htg : Relation.TransGen (depEdge m) child parent :=
        Relation.TransGen.head' hcz hzp
      exact h2 (depends_on_complete m child parent hnodup hclosed hc htg)
  have hpost := no_new_cycle m m2 parent child hchar hcp hpre'
  intro x _
  by_contra hcon
  rw [Bool.not_eq_false] at hcon
  exact hpost x (depends_on_sound hcon)

/-- A fresh two-task collection with no edges. -/
def mC6 : ToDoManager :=
  { todos := [(0, { defaultToDo with title := "a" }),
              (1, { defaultToDo with title := "b" })],
    nextId := 2 }

/-- C6, witness: applying the theorem to a concrete two-task state and the
successful insertion of the edge `0 → 1`, read off at the child task. -/
theorem c6_add_dependency_acyclic_witness :
    ((ids mC6).Nodup ∧ DepsClosed mC6 ∧ 0 ∈ ids mC6 ∧ 1 ∈ ids mC6 ∧
      (∀ x ∈ ids mC6, depends_on mC6 x x = false)) ∧
    depends_on (add_dependency mC6 0 1).2 1 1 = false :=
  ⟨⟨by decide, by decide, by decide, by decide, by decide⟩,
    c6_add_dependency_acyclic mC6 0 1 (by decide) (by decide) (by decide)
      (by decide) (by decide) 1 (by decide)⟩

/-! ### Generation idempotence (claim C8) -/

/-- Unfolding of one iteration of the generation loop when the guard
holds. -/
theorem genLoop_succ_true (sg : Int → TaskId → Int → List (ToDo × Int) →
    ToDoManager → ToDoManager) (today : Int) (fuel : Nat) (m : ToDoManager)
    (bp : Blueprint) (current : Int) (acc : List TaskId)
    (hcond : current + bp.interval_days ≤ today) :
    genLoop sg today (fuel + 1) m bp current acc =
      match mkToDo today
          (formatTitle bp.title_pattern (bp.generated_todos.length + 1))
          bp.category bp.description (some bp.priority) none
          (some (current + bp.interval_days + bp.interval_days)) false none
          (some bp.tags) none none false with
      | .error e => (some e, m, bp, current + bp.interval_days, acc)
      | .ok parent =>
        genLoop sg today fuel
          (sg today (add_todo_new today m parent).2
            (current + bp.interval_days + bp.interval_days)
            bp.template_subtasks (add_todo_new today m parent).1)
          { bp with generated_todos :=
              bp.generated_todos ++ [(add_todo_new today m parent).2] }
          (current + bp.interval_days)
          (acc ++ [(add_todo_new today m parent).2]) := by
  rw [genLoop, if_pos hcond]

/-- Unfolding of the loop when the guard fails. -/
theorem genLoop_succ_false (sg : Int → TaskId → Int → List (ToDo × Int) →
    ToDoManager → ToDoManager) (today : Int) (fuel : Nat) (m : ToDoManager)
    (bp : Blueprint) (current : Int) (acc : List TaskId)
    (hcond : ¬(current + bp.interval_days ≤ today)) :
    genLoop sg today (fuel + 1) m bp current acc =
      (none, m, bp, current, acc) := by
  rw [genLoop, if_neg hcond]

/-- The generation loop only ever changes the blueprint's
`generated_todos` log (the cursor is written after the loop). -/
theorem genLoop_bp (sg : Int → TaskId → Int → List (ToDo × Int) →
    ToDoManager → ToDoManager) (today : Int) :
    ∀ (fuel : Nat) (m : ToDoManager) (bp : Blueprint) (current : Int)
      (acc : List TaskId), ∃ g,
      (genLoop sg today fuel m bp current acc).2.2.1 =
        { bp with generated_todos := g } := by
  intro fuel
  induction fuel with
  | zero => intro m bp current acc; exact ⟨bp.generated_todos, rfl⟩
  | succ fuel ih =>
    intro m bp current acc
    by_cases hcond : current + bp.interval_days ≤ today
    · rw [genLoop_succ_true sg today fuel m bp current acc hcond]
      cases hmk : mkToDo today
          (formatTitle bp.title_pattern (bp.generated_todos.length + 1))
          bp.category bp.description (some bp.priority) none
          (some (current + bp.interval_days + bp.interval_days)) false none
          (some bp.tags) none none false with
      | error e => exact ⟨bp.generated_todos, rfl⟩
      | ok parent =>
        obtain ⟨g, hg⟩ := ih
          (sg today (add_todo_new today m parent).2
            (current + bp.interval_days + bp.interval_days)
            bp.template_subtasks (add_todo_new today m parent).1)
          { bp with generated_todos :=
              bp.generated_todos ++ [(add_todo_new today m parent).2] }
          (current + bp.interval_days)
          (acc ++ [(add_todo_new today m parent).2])
        exact ⟨g, hg⟩
    · rw [genLoop_succ_false sg today fuel m bp current acc hcond]
      exact ⟨bp.generated_todos, rfl⟩

/-- With a positive interval and enough fuel the loop terminates with the
guard false; the returned id list extends the accumulator; and when it
reports no new occurrence, nothing at all happened. -/
theorem genLoop_post (sg : Int → TaskId → Int → List (ToDo × Int) →
    ToDoManager → ToDoManager) (today : Int) :
    ∀ (fuel : Nat) (m : ToDoManager) (bp : Blueprint) (current : Int)
      (acc : List TaskId),
      1 ≤ bp.interval_days →
      (today - current).toNat < fuel →
      (genLoop sg today fuel m bp current acc).1 = none →
      ¬((genLoop sg today fuel m bp current acc).2.2.2.1 +
          bp.interval_days ≤ today) ∧
      (∃ ext, (genLoop sg today fuel m bp current acc).2.2.2.2 =
        acc ++ ext) ∧
      ((genLoop sg today fuel m bp current acc).2.2.2.2 = acc →
        genLoop sg today fuel m bp current acc =
          (none, m, bp, current, acc)) := by
  intro fuel
  induction fuel with
  | zero => intro m bp current acc hi hfuel _; omega
  | succ fuel ih =>
    intro m bp current acc hi hfuel herr
    by_cases hcond : current + bp.interval_days ≤ today
    · rw [genLoop_succ_true sg today fuel m bp current acc hcond] at herr ⊢
      cases hmk : mkToDo today
          (formatTitle bp.title_pattern (bp.generated_todos.length + 1))
          bp.category bp.description (some bp.priority) none
          (some (current + bp.interval_days + bp.interval_days)) false none
          (some bp.tags) none none false with
      | error e =>
        rw [hmk] at herr
        dsimp only at herr
        exact absurd herr (by simp)
      | ok parent =>
        rw [hmk] at herr
        dsimp only at herr ⊢
        have hfuel' : (today - (current + bp.interval_days)).toNat < fuel := by
          omega
        have hih := ih
          (sg today (add_todo_new today m parent).2
            (current + bp.interval_days + bp.interval_days)
            bp.template_subtasks (add_todo_new today m parent).1)
          { bp with generated_todos :=
              bp.generated_todos ++ [(add_todo_new today m parent).2] }
          (current + bp.interval_days)
          (acc ++ [(add_todo_new today m parent).2])
          hi hfuel' herr
        refine ⟨hih.1, ?_, ?_⟩
        · obtain ⟨ext, hext⟩ := hih.2.1
          refine ⟨(add_todo_new today m parent).2 :: ext, ?_⟩
          rw [hext, List.append_assoc]
          rfl
        · intro hacc
          exfalso
          obtain ⟨ext, hext⟩ := hih.2.1
          rw [hext] at hacc
          have hlen := congrArg List.length hacc
          simp [List.length_append] at hlen
    · rw [genLoop_succ_false sg today fuel m bp current acc hcond] at herr ⊢
      exact ⟨hcond, ⟨[], by simp⟩, fun _ => rfl⟩

/-- A parent task synthesized by the generator never fails construction
when the blueprint's category and tags are valid: the `created_at`
argument is `None`, so the deadline check is skipped. -/
theorem mkToDo_gen_ok (today : Int) (title category : String)
    (desc : Option String) (prio : Option Priority) (deadline : Int)
    (tags : List String) (hcat : category ∈ categories)
    (htags : ∀ tag ∈ tags, tag ∉ categories) :
    ∃ t, mkToDo today title category desc prio none (some deadline) false
        none (some tags) none none false = .ok t ∧
      t.dependencies = [] ∧ t.dependancy_of = [] ∧ t.is_project = false ∧
      t.done = false ∧ t.in_progress = false ∧ t.deadline = deadline ∧
      t.title = title := by
  have htag' : ¬((some tags).getD []).any (fun tag => tag ∈ categories) := by
    simp only [Option.getD_some, List.any_eq_true, not_exists]
    intro tag
    rintro ⟨htag, hmem⟩
    exact htags tag htag (by simpa using hmem)
  unfold mkToDo
  rw [if_neg (by simpa using hcat), if_neg (by simp), if_neg (by simp),
    if_neg htag']
  exact ⟨_, rfl, rfl, rfl, rfl, rfl, rfl, rfl, rfl⟩

/-- With a valid category and valid tags the loop never raises. -/
theorem genLoop_noerr (sg : Int → TaskId → Int → List (ToDo × Int) →
    ToDoManager → ToDoManager) (today : Int) :
    ∀ (fuel : Nat) (m : ToDoManager) (bp : Blueprint) (current : Int)
      (acc : List TaskId),
      bp.category ∈ categories → (∀ tag ∈ bp.tags, tag ∉ categories) →
      (genLoop sg today fuel m bp current acc).1 = none := by
  intro fuel
  induction fuel with
  | zero => intro m bp current acc _ _; rfl
  | succ fuel ih =>
    intro m bp current acc hcat htags
    by_cases hcond : current + bp.interval_days ≤ today
    · rw [genLoop_succ_true sg today fuel m bp current acc hcond]
      obtain ⟨t, hmk, -⟩ := mkToDo_gen_ok today
        (formatTitle bp.title_pattern (bp.generated_todos.length + 1))
        bp.category bp.description (some bp.priority)
        (current + bp.interval_days + bp.interval_days) bp.tags hcat htags
      rw [hmk]
      exact ih _ _ _ _ hcat htags
    · rw [genLoop_succ_false sg today fuel m bp current acc hcond]

/-- `generate_due_tasks` is a no-op returning no occurrences whenever the
blueprint is inactive, `today` precedes the start date, or the next due
date (cursor plus interval) lies beyond `today`. -/
theorem generate_due_tasks_noop (m : ToDoManager) (bp : Blueprint)
    (today : Int)
    (h : bp.active = false ∨ today < bp.start_date ∨
      ¬(bp.last_generated_date.getD (bp.start_date - bp.interval_days) +
          bp.interval_days ≤ today)) :
    generate_due_tasks m bp today = (none, m, bp, []) := by
  by_cases hact : (!bp.active || decide (today < bp.start_date)) = true
  · unfold generate_due_tasks genDueTasksWith
    rw [if_pos hact]
  · set last := bp.last_generated_date.getD
      (bp.start_date - bp.interval_days) with hlastdef
    set r := genLoop genSubtasks today (genFuel last today) m bp last []
      with hrdef
    have hunf : generate_due_tasks m bp today =
        if r.2.2.2.2 ≠ [] ∧ r.1 = none then
          (r.1, r.2.1,
            { r.2.2.1 with last_generated_date := some r.2.2.2.1 },
            r.2.2.2.2)
        else (r.1, r.2.1, r.2.2.1, r.2.2.2.2) := by
      unfold generate_due_tasks genDueTasksWith
      rw [if_neg hact]
    have hact' : bp.active = true ∧ ¬(today < bp.start_date) := by
      constructor
      · by_cases ha : bp.active = true
        · exact ha
        · exact absurd (by simp [show bp.active = false by simpa using ha])
            hact
      · intro hlt
        exact hact (by simp [hlt])
    have hcond : ¬(last + bp.interval_days ≤ today) := by
      rcases h with h | h | h
      · rw [h] at hact'; exact absurd hact'.1 (by simp)
      · exact absurd h hact'.2
      · rw [hlastdef]; exact h
    have hr : r = (none, m, bp, last, []) := by
      rw [hrdef]
      exact genLoop_succ_false genSubtasks today _ m bp last [] hcond
    rw [hunf, hr, if_neg (by simp)]

/-- When a call with valid blueprint data produces no occurrence, it
changes nothing, and a second call on any not-later day produces none
either. -/
theorem generate_empty_noop (m : ToDoManager) (bp : Blueprint)
    (today today' : Int) (hi : 1 ≤ bp.interval_days)
    (hcat : bp.category ∈ categories)
    (htags : ∀ tag ∈ bp.tags, tag ∉ categories) (hle : today' ≤ today)
    (hempty : (generate_due_tasks m bp today).2.2.2 = []) :
    generate_due_tasks m bp today = (none, m, bp, []) ∧
      generate_due_tasks m bp today' = (none, m, bp, []) := by
  by_cases hact : (!bp.active || decide (today < bp.start_date)) = true
  · have h1 : generate_due_tasks m bp today = (none, m, bp, []) := by
      unfold generate_due_tasks genDueTasksWith
      rw [if_pos hact]
    refine ⟨h1, generate_due_tasks_noop m bp today' ?_⟩
    by_cases ha : bp.active = true
    · refine Or.inr (Or.inl ?_)
      have : decide (today < bp.start_date) = true := by
        have := hact
        rw [ha] at this
        simpa using this
      have := of_decide_eq_true this
      omega
    · exact Or.inl (by simpa using ha)
  · set last := bp.last_generated_date.getD
      (bp.start_date - bp.interval_days) with hlastdef
    set r := genLoop genSubtasks today (genFuel last today) m bp last []
      with hrdef
    have herr : r.1 = none := by
      rw [hrdef]
      exact genLoop_noerr genSubtasks today _ m bp last [] hcat htags
    have hfuel : (today - last).toNat < genFuel last today := by
      unfold genFuel; omega
    have hpost := genLoop_post genSubtasks today (genFuel last today)
      m bp last [] hi hfuel (by rw [← hrdef]; exact herr)
    rw [← hrdef] at hpost
    have hunf : generate_due_tasks m bp today =
        if r.2.2.2.2 ≠ [] ∧ r.1 = none then
          (r.1, r.2.1,
            { r.2.2.1 with last_generated_date := some r.2.2.2.1 },
            r.2.2.2.2)
        else (r.1, r.2.1, r.2.2.1, r.2.2.2.2) := by
      unfold generate_due_tasks genDueTasksWith
      rw [if_neg hact]
    have hacc : r.2.2.2.2 = [] := by
      by_cases hne : r.2.2.2.2 = []
      · exact hne
      · rw [hunf, if_pos ⟨hne, herr⟩] at hempty
        exact absurd hempty hne
    have hr : r = (none, m, bp, last, []) := hpost.2.2 hacc
    have h1 : generate_due_tasks m bp today = (none, m, bp, []) := by
      rw [hunf, hr, if_neg (by simp)]
    refine ⟨h1, generate_due_tasks_noop m bp today' ?_⟩
    refine Or.inr (Or.inr ?_)
    have hexit := hpost.1
    rw [hr] at hexit
    dsimp only at hexit
    rw [← hlastdef]
    omega

/-- When a call with valid blueprint data produces occurrences, it returns
no error and sets the cursor to a date whose next due day is beyond
`today`; all other blueprint fields except the occurrence log are kept. -/
theorem generate_nonempty (m : ToDoManager) (bp : Blueprint) (today : Int)
    (hi : 1 ≤ bp.interval_days) (hcat : bp.category ∈ categories)
    (htags : ∀ tag ∈ bp.tags, tag ∉ categories)
    (hne : (generate_due_tasks m bp today).2.2.2 ≠ []) :
    (generate_due_tasks m bp today).1 = none ∧
      ∃ g cur, (generate_due_tasks m bp today).2.2.1 =
          { bp with generated_todos := g, last_generated_date := some cur } ∧
        ¬(cur + bp.interval_days ≤ today) := by
  by_cases hact : (!bp.active || decide (today < bp.start_date)) = true
  · exfalso
    apply hne
    have h1 : generate_due_tasks m bp today = (none, m, bp, []) := by
      unfold generate_due_tasks genDueTasksWith
      rw [if_pos hact]
    rw [h1]
  · set last := bp.last_generated_date.getD
      (bp.start_date - bp.interval_days) with hlastdef
    set r := genLoop genSubtasks today (genFuel last today) m bp last []
      with hrdef
    have herr : r.1 = none := by
      rw [hrdef]
      exact genLoop_noerr genSubtasks today _ m bp last [] hcat htags
    have hfuel : (today - last).toNat < genFuel last today := by
      unfold genFuel; omega
    have hpost := genLoop_post genSubtasks today (genFuel last today)
      m bp last [] hi hfuel (by rw [← hrdef]; exact herr)
    rw [← hrdef] at hpost
    obtain ⟨g, hbpg⟩ := genLoop_bp genSubtasks today (genFuel last today)
      m bp last []
    rw [← hrdef] at hbpg
    have hunf : generate_due_tasks m bp today =
        if r.2.2.2.2 ≠ [] ∧ r.1 = none then
          (r.1, r.2.1,
            { r.2.2.1 with last_generated_date := some r.2.2.2.1 },
            r.2.2.2.2)
        else (r.1, r.2.1, r.2.2.1, r.2.2.2.2) := by
      unfold generate_due_tasks genDueTasksWith
      rw [if_neg hact]
    have hacc : r.2.2.2.2 ≠ [] := by
      intro hcon
      apply hne
      rw [hunf, if_neg (by rw [hcon]; simp)]
      exact hcon
    rw [hunf, if_pos ⟨hacc, herr⟩]
    refine ⟨herr, g, r.2.2.2.1, ?_, hpost.1⟩
    show ({ r.2.2.1 with last_generated_date := some r.2.2.2.1 } :
      Blueprint) = _
    rw [hbpg]

/-- C8: for a blueprint with a positive interval and valid category/tags,
a second `generate_due_tasks` call immediately after a first one, with the
same or any earlier date, raises nothing and produces zero occurrences:
the persisted cursor makes repeated generation duplicate-free, and the
second call leaves the collection and the blueprint untouched. -/
theorem c8_generate_idempotent (m : ToDoManager) (bp : Blueprint)
    (today today' : Int) (hi : 1 ≤ bp.interval_days)
    (hcat : bp.category ∈ categories)
    (htags : ∀ tag ∈ bp.tags, tag ∉ categories) (hle : today' ≤ today) :
    (generate_due_tasks m bp today).1 = none ∧
      generate_due_tasks (generate_due_tasks m bp today).2.1
          (generate_due_tasks m bp today).2.2.1 today' =
        (none, (generate_due_tasks m bp today).2.1,
          (generate_due_tasks m bp today).2.2.1, []) := by
  by_cases hempty : (generate_due_tasks m bp today).2.2.2 = []
  · obtain ⟨h1, h2⟩ :=
      generate_empty_noop m bp today today' hi hcat htags hle hempty
    constructor
    · rw [h1]
    · rw [h1]
      exact h2
  · obtain ⟨h1, g, cur, hbp1, hcur⟩ :=
      generate_nonempty m bp today hi hcat htags hempty
    refine ⟨h1, ?_⟩
    rw [hbp1]
    apply generate_due_tasks_noop
    refine Or.inr (Or.inr ?_)
    dsimp only
    simp only [Option.getD_some]
    omega

/-- C8, witness: the day-20 scenario blueprint, called twice at day 20. -/
theorem c8_generate_idempotent_witness :
    (generate_due_tasks mC1 bpC1 20).1 = none ∧
      generate_due_tasks (generate_due_tasks mC1 bpC1 20).2.1
          (generate_due_tasks mC1 bpC1 20).2.2.1 20 =
        (none, (generate_due_tasks mC1 bpC1 20).2.1,
          (generate_due_tasks mC1 bpC1 20).2.2.1, []) :=
  c8_generate_idempotent mC1 bpC1 20 20 (by decide) (by decide)
    (by decide) (by decide)

/-! ### Infrastructure for the reconciliation pass (claim C4) -/

/-- Two states with the same task set, the same graph structure and the
same project flags; the lifecycle operations only change the four
completion-related fields. -/
def ShapeEq (m m' : ToDoManager) : Prop :=
  ids m' = ids m ∧ m'.nextId = m.nextId ∧
  ∀ i, (getTask m' i).dependencies = (getTask m i).dependencies ∧
    (getTask m' i).dependancy_of = (getTask m i).dependancy_of ∧
    (getTask m' i).is_project = (getTask m i).is_project

theorem shapeEq_refl (m : ToDoManager) : ShapeEq m m :=
  ⟨rfl, rfl, fun _ => ⟨rfl, rfl, rfl⟩⟩

theorem shapeEq_trans {m1 m2 m3 : ToDoManager} (h1 : ShapeEq m1 m2)
    (h2 : ShapeEq m2 m3) : ShapeEq m1 m3 := by
  obtain ⟨ha1, hb1, hc1⟩ := h1
  obtain ⟨ha2, hb2, hc2⟩ := h2
  refine ⟨ha2.trans ha1, hb2.trans hb1, fun i => ?_⟩
  obtain ⟨x1, y1, z1⟩ := hc1 i
  obtain ⟨x2, y2, z2⟩ := hc2 i
  exact ⟨x2.trans x1, y2.trans y1, z2.trans z1⟩

/-- `setTask` with a task of unchanged shape preserves the shape. -/
theorem shapeEq_setTask (m : ToDoManager) (i : TaskId) (t : ToDo)
    (hd : t.dependencies = (getTask m i).dependencies)
    (hp : t.dependancy_of = (getTask m i).dependancy_of)
    (hj : t.is_project = (getTask m i).is_project) :
    ShapeEq m (setTask m i t) := by
  refine ⟨ids_setTask m i t, rfl, fun j => ?_⟩
  by_cases hji : j = i
  · subst hji
    by_cases hmem : j ∈ ids m
    · rw [getTask_setTask_eq m j t hmem]
      exact ⟨hd, hp, hj⟩
    · rw [getTask_setTask_missing m j t hmem]
      exact ⟨rfl, rfl, rfl⟩
  · rw [getTask_setTask_ne m i t j hji]
    exact ⟨rfl, rfl, rfl⟩

theorem todoMarkDone_shape (t : ToDo) (u : Bool) (a : Option Int)
    (today : Int) :
    (todoMarkDone t u a today).dependencies = t.dependencies ∧
    (todoMarkDone t u a today).dependancy_of = t.dependancy_of ∧
    (todoMarkDone t u a today).is_project = t.is_project := by
  unfold todoMarkDone
  by_cases h : (!t.done && u) = true <;> simp [h]

theorem todoMarkUndone_shape (t : ToDo) :
    (todoMarkUndone t).dependencies = t.dependencies ∧
    (todoMarkUndone t).dependancy_of = t.dependancy_of ∧
    (todoMarkUndone t).is_project = t.is_project := by
  unfold todoMarkUndone
  by_cases h : t.done = true <;> simp [h]

theorem applyMarkDone_shape (m : ToDoManager) (i : TaskId) (a : Option Int)
    (today : Int) : ShapeEq m (applyMarkDone m i a today) := by
  unfold applyMarkDone
  obtain ⟨h1, h2, h3⟩ := todoMarkDone_shape (getTask m i) (is_unblocked m i)
    a today
  exact shapeEq_setTask m i _ h1 h2 h3

theorem applyMarkUndone_shape (m : ToDoManager) (i : TaskId) :
    ShapeEq m (applyMarkUndone m i) := by
  unfold applyMarkUndone
  obtain ⟨h1, h2, h3⟩ := todoMarkUndone_shape (getTask m i)
  exact shapeEq_setTask m i _ h1 h2 h3

/-- Well-formedness of a task graph: unique ids, closed edge sets, and the
mutual-inverse invariant between `dependencies` and `dependancy_of`. -/
def WFm (m : ToDoManager) : Prop :=
  (ids m).Nodup ∧
  (∀ i ∈ ids m, ∀ d ∈ (getTask m i).dependencies, d ∈ ids m) ∧
  (∀ i ∈ ids m, ∀ p ∈ (getTask m i).dependancy_of, p ∈ ids m) ∧
  (∀ i ∈ ids m, ∀ p ∈ (getTask m i).dependancy_of,
    i ∈ (getTask m p).dependencies) ∧
  (∀ i ∈ ids m, ∀ d ∈ (getTask m i).dependencies,
    i ∈ (getTask m d).dependancy_of)

instance decWFm (m : ToDoManager) : Decidable (WFm m) := by
  unfold WFm
  infer_instance

/-- A task with a `true` field lives in the collection (missing ids give
the all-false default task). -/
theorem mem_of_done (m : ToDoManager) (i : TaskId)
    (h : (getTask m i).done = true) : i ∈ ids m := by
  by_contra hmem
  rw [getTask_not_mem m i hmem] at h
  exact Bool.false_ne_true h

theorem mem_of_pars (m : ToDoManager) (i : TaskId) {p : TaskId}
    (h : p ∈ (getTask m i).dependancy_of) : i ∈ ids m ∨ False := by
  by_cases hmem : i ∈ ids m
  · exact Or.inl hmem
  · rw [getTask_not_mem m i hmem] at h
    simp [defaultToDo] at h

/-- Universal forms of the well-formedness clauses (missing ids carry the
empty default edge sets). -/
theorem wfm_deps_closed {m : ToDoManager} (h : WFm m) (i : TaskId) :
    ∀ d ∈ (getTask m i).dependencies, d ∈ ids m := by
  by_cases hmem : i ∈ ids m
  · exact h.2.1 i hmem
  · rw [getTask_not_mem m i hmem]
    intro d hd
    simp [defaultToDo] at hd

theorem wfm_pars_closed {m : ToDoManager} (h : WFm m) (i : TaskId) :
    ∀ p ∈ (getTask m i).dependancy_of, p ∈ ids m := by
  by_cases hmem : i ∈ ids m
  · exact h.2.2.1 i hmem
  · rw [getTask_not_mem m i hmem]
    intro p hp
    simp [defaultToDo] at hp

theorem wfm_pars_sound {m : ToDoManager} (h : WFm m) (i : TaskId) :
    ∀ p ∈ (getTask m i).dependancy_of, i ∈ (getTask m p).dependencies := by
  by_cases hmem : i ∈ ids m
  · exact h.2.2.2.1 i hmem
  · rw [getTask_not_mem m i hmem]
    intro p hp
    simp [defaultToDo] at hp

theorem wfm_deps_sound {m : ToDoManager} (h : WFm m) (i : TaskId) :
    ∀ d ∈ (getTask m i).dependencies, i ∈ (getTask m d).dependancy_of := by
  by_cases hmem : i ∈ ids m
  · exact h.2.2.2.2 i hmem
  · rw [getTask_not_mem m i hmem]
    intro d hd
    simp [defaultToDo] at hd

/-- Well-formedness only concerns the shape, so it transfers along
`ShapeEq`. -/
theorem wfm_of_shape {m m' : ToDoManager} (hs : ShapeEq m m') (h : WFm m) :
    WFm m' := by
  obtain ⟨hids, _, hpt⟩ := hs
  refine ⟨hids ▸ h.1, ?_, ?_, ?_, ?_⟩
  · intro i hi d hd
    rw [hids]
    exact wfm_deps_closed h i d ((hpt i).1 ▸ hd)
  · intro i hi p hp
    rw [hids]
    exact wfm_pars_closed h i p ((hpt i).2.1 ▸ hp)
  · intro i hi p hp
    rw [(hpt p).1]
    exact wfm_pars_sound h i p ((hpt i).2.1 ▸ hp)
  · intro i hi d hd
    rw [(hpt d).2.1]
    exact wfm_deps_sound h i d ((hpt i).1 ▸ hd)

/-- Number of managed tasks not yet visited: the cascade fuel measure. -/
def unvisCount (m : ToDoManager) (vis : List TaskId) : Nat :=
  ((ids m).filter (fun v => v ∉ vis)).length

theorem length_filter_mono {α : Type _} (l : List α) (p q : α → Bool)
    (h : ∀ a, p a = true → q a = true) :
    (l.filter p).length ≤ (l.filter q).length := by
  induction l with
  | nil => exact Nat.le_refl 0
  | cons a l ih =>
    by_cases hp : p a = true
    · rw [List.filter_cons_of_pos hp, List.filter_cons_of_pos (h a hp)]
      simpa using ih
    · rw [List.filter_cons_of_neg (by simpa using hp)]
      by_cases hq : q a = true
      · rw [List.filter_cons_of_pos hq]
        exact Nat.le_trans ih (by simp)
      · rw [List.filter_cons_of_neg (by simpa using hq)]
        exact ih

theorem unvisCount_anti (m : ToDoManager) {vis vis' : List TaskId}
    (h : vis ⊆ vis') : unvisCount m vis' ≤ unvisCount m vis := by
  refine length_filter_mono (ids m) _ _ ?_
  intro a ha
  simp only [decide_eq_true_eq] at ha ⊢
  exact fun hmem => ha (h hmem)

theorem unvisCount_cons_lt (m : ToDoManager) (i : TaskId)
    (vis : List TaskId) (hnodup : (ids m).Nodup) (hi : i ∈ ids m)
    (hv : i ∉ vis) : unvisCount m (i :: vis) < unvisCount m vis := by
  unfold unvisCount
  have hfilter : (ids m).filter (fun v => v ∉ i :: vis) =
      ((ids m).filter (fun v => v ∉ vis)).erase i := by
    rw [(hnodup.filter _).erase_eq_filter i, List.filter_filter]
    refine List.filter_congr ?_
    intro v _
    by_cases h1 : v = i <;> by_cases h2 : v ∈ vis <;> simp [h1, h2]
  have hmem : i ∈ (ids m).filter (fun v => v ∉ vis) :=
    List.mem_filter.mpr ⟨hi, by simp [hv]⟩
  rw [hfilter, List.length_erase_of_mem hmem]
  have := List.length_pos_of_mem hmem
  omega

theorem unvisCount_shape {m m' : ToDoManager} (hs : ShapeEq m m')
    (vis : List TaskId) : unvisCount m' vis = unvisCount m vis := by
  unfold unvisCount
  rw [hs.1]

theorem unvisCount_nil (m : ToDoManager) :
    unvisCount m [] = m.todos.length := by
  unfold unvisCount
  rw [List.filter_eq_self.mpr (fun a _ => by simp)]
  exact List.length_map _ _

/-! Small facts about the completion operations. -/

theorem applyMarkUndone_done_self (m : ToDoManager) (i : TaskId)
    (h : i ∈ ids m) : (getTask (applyMarkUndone m i) i).done = false := by
  unfold applyMarkUndone
  rw [getTask_setTask_eq m i _ h]
  unfold todoMarkUndone
  by_cases hd : (getTask m i).done = true <;> simp [hd]

theorem applyMarkUndone_done_other (m : ToDoManager) (i j : TaskId)
    (h : j ≠ i) :
    (getTask (applyMarkUndone m i) j).done = (getTask m j).done := by
  unfold applyMarkUndone
  rw [getTask_setTask_ne m i _ j h]

/-- `mark_undone` never sets `done`. -/
theorem applyMarkUndone_le (m : ToDoManager) (i : TaskId) (j : TaskId)
    (h : (getTask (applyMarkUndone m i) j).done = true) :
    (getTask m j).done = true := by
  by_cases hji : j = i
  · subst hji
    by_cases hmem : j ∈ ids m
    · rw [applyMarkUndone_done_self m j hmem] at h
      exact absurd h (by simp)
    · unfold applyMarkUndone at h
      rw [getTask_setTask_missing m j _ hmem] at h
      exact h
  · rw [applyMarkUndone_done_other m i j hji] at h
    exact h

theorem applyMarkDone_ge (m : ToDoManager) (i : TaskId) (a : Option Int)
    (today : Int) (j : TaskId) (h : (getTask m j).done = true) :
    (getTask (applyMarkDone m i a today) j).done = true := by
  by_cases hji : j = i
  · subst hji
    by_cases hmem : j ∈ ids m
    · unfold applyMarkDone
      rw [getTask_setTask_eq m j _ hmem]
      unfold todoMarkDone
      rw [if_neg (by rw [h]; simp)]
      exact h
    · unfold applyMarkDone
      rw [getTask_setTask_missing m j _ hmem]
      exact h
  · unfold applyMarkDone
    rw [getTask_setTask_ne m i _ j hji]
    exact h

theorem applyMarkDone_done_other (m : ToDoManager) (i : TaskId)
    (a : Option Int) (today : Int) (j : TaskId) (h : j ≠ i) :
    (getTask (applyMarkDone m i a today) j).done = (getTask m j).done := by
  unfold applyMarkDone
  rw [getTask_setTask_ne m i _ j h]

theorem applyMarkDone_done_self (m : ToDoManager) (i : TaskId)
    (a : Option Int) (today : Int) (hmem : i ∈ ids m)
    (h : (getTask m i).done = true ∨ is_unblocked m i = true) :
    (getTask (applyMarkDone m i a today) i).done = true := by
  unfold applyMarkDone
  rw [getTask_setTask_eq m i _ hmem]
  unfold todoMarkDone
  rcases h with h | h
  · rw [if_neg (by rw [h]; simp)]
    exact h
  · by_cases hd : (getTask m i).done = true
    · rw [if_neg (by rw [hd]; simp)]
      exact hd
    · have hd' : (getTask m i).done = false := by simpa using hd
      rw [if_pos (by rw [hd', h]; simp)]

/-- A no-op `mark_undone`: the task was already undone. -/
theorem applyMarkUndone_noop (m : ToDoManager) (i : TaskId)
    (hnodup : (ids m).Nodup) (h : (getTask m i).done = false) :
    applyMarkUndone m i = m := by
  unfold applyMarkUndone todoMarkUndone
  rw [h]
  simp only [Bool.false_eq_true, if_false]
  exact setTask_self m i hnodup

/-- A no-op `mark_done`: the task was already done. -/
theorem applyMarkDone_noop (m : ToDoManager) (i : TaskId) (a : Option Int)
    (today : Int) (hnodup : (ids m).Nodup)
    (h : (getTask m i).done = true) : applyMarkDone m i a today = m := by
  unfold applyMarkDone todoMarkDone
  rw [h]
  simp only [Bool.not_true, Bool.false_and, Bool.false_eq_true, if_false]
  exact setTask_self m i hnodup

/-! Unfolding equations for the cascades. -/

theorem muRec_zero (m : ToDoManager) (i : TaskId) (vis : List TaskId) :
    muRec 0 m i vis = (m, vis) := rfl

theorem muRec_mem (fuel : Nat) (m : ToDoManager) (i : TaskId)
    (vis : List TaskId) (h : i ∈ vis) : muRec fuel m i vis = (m, vis) := by
  cases fuel with
  | zero => rfl
  | succ fuel => rw [muRec, if_pos h]

theorem muRec_notmem (fuel : Nat) (m : ToDoManager) (i : TaskId)
    (vis : List TaskId) (h : i ∉ vis) :
    muRec (fuel + 1) m i vis =
      ((getTask (applyMarkUndone m i) i).dependancy_of).foldl
        (fun acc p =>
          if (getTask acc.1 p).done || (getTask acc.1 p).in_progress then
            muRec fuel (applyMarkUndone acc.1 p) p acc.2
          else acc)
        (applyMarkUndone m i, i :: vis) := by
  rw [muRec, if_neg h]

theorem mdRec_zero (today : Int) (m : ToDoManager) (i : TaskId)
    (a : Option Int) (vis : List TaskId) :
    mdRec today 0 m i a vis = (m, vis) := rfl

theorem mdRec_mem (today : Int) (fuel : Nat) (m : ToDoManager) (i : TaskId)
    (a : Option Int) (vis : List TaskId) (h : i ∈ vis) :
    mdRec today fuel m i a vis = (m, vis) := by
  cases fuel with
  | zero => rfl
  | succ fuel => rw [mdRec, if_pos h]

theorem mdRec_notmem (today : Int) (fuel : Nat) (m : ToDoManager)
    (i : TaskId) (a : Option Int) (vis : List TaskId) (h : i ∉ vis) :
    mdRec today (fuel + 1) m i a vis =
      ((getTask (applyMarkDone m i a today) i).dependancy_of).foldl
        (fun acc p =>
          if (getTask acc.1 p).is_project && is_unblocked acc.1 p then
            let total := sumActual acc.1 p
            mdRec today fuel (applyMarkDone acc.1 p (some total) today) p
              (some total) acc.2
          else acc)
        (applyMarkDone m i a today, i :: vis) := by
  rw [mdRec, if_neg h]

/-- The undo cascade never changes the shape of the graph. -/
theorem muRec_shape (fuel : Nat) :
    ∀ (m : ToDoManager) (i : TaskId) (vis : List TaskId),
      ShapeEq m (muRec fuel m i vis).1 := by
  induction fuel with
  | zero => intro m i vis; exact shapeEq_refl m
  | succ fuel ih =>
    intro m i vis
    by_cases hv : i ∈ vis
    · rw [muRec_mem (fuel + 1) m i vis hv]
      exact shapeEq_refl m
    · rw [muRec_notmem fuel m i vis hv]
      have hfold : ∀ (P : List TaskId) (mv : ToDoManager × List TaskId),
          ShapeEq mv.1 ((P.foldl (fun acc p =>
            if (getTask acc.1 p).done || (getTask acc.1 p).in_progress then
              muRec fuel (applyMarkUndone acc.1 p) p acc.2
            else acc) mv)).1 := by
        intro P
        induction P with
        | nil => intro mv; exact shapeEq_refl mv.1
        | cons p P ihP =>
          intro mv
          rw [List.foldl_cons]
          by_cases hc : ((getTask mv.1 p).done || (getTask mv.1 p).in_progress)
              = true
          · rw [if_pos hc]
            exact shapeEq_trans
              (shapeEq_trans (applyMarkUndone_shape mv.1 p)
                (ih (applyMarkUndone mv.1 p) p mv.2))
              (ihP _)
          · rw [if_neg hc]
            exact ihP mv
      exact shapeEq_trans (applyMarkUndone_shape m i) (hfold _ _)

/-- The completion cascade never changes the shape of the graph. -/
theorem mdRec_shape (today : Int) (fuel : Nat) :
    ∀ (m : ToDoManager) (i : TaskId) (a : Option Int) (vis : List TaskId),
      ShapeEq m (mdRec today fuel m i a vis).1 := by
  induction fuel with
  | zero => intro m i a vis; exact shapeEq_refl m
  | succ fuel ih =>
    intro m i a vis
    by_cases hv : i ∈ vis
    · rw [mdRec_mem today (fuel + 1) m i a vis hv]
      exact shapeEq_refl m
    · rw [mdRec_notmem today fuel m i a vis hv]
      have hfold : ∀ (P : List TaskId) (mv : ToDoManager × List TaskId),
          ShapeEq mv.1 ((P.foldl (fun acc p =>
            if (getTask acc.1 p).is_project && is_unblocked acc.1 p then
              let total := sumActual acc.1 p
              mdRec today fuel (applyMarkDone acc.1 p (some total) today) p
                (some total) acc.2
            else acc) mv)).1 := by
        intro P
        induction P with
        | nil => intro mv; exact shapeEq_refl mv.1
        | cons p P ihP =>
          intro mv
          rw [List.foldl_cons]
          by_cases hc : ((getTask mv.1 p).is_project &&
              is_unblocked mv.1 p) = true
          · rw [if_pos hc]
            exact shapeEq_trans
              (shapeEq_trans (applyMarkDone_shape mv.1 p _ today)
                (ih (applyMarkDone mv.1 p _ today) p _ mv.2))
              (ihP _)
          · rw [if_neg hc]
            exact ihP mv
      exact shapeEq_trans (applyMarkDone_shape m i a today) (hfold _ _)

/-- `is_unblocked` transfers along shape equality plus monotone `done`. -/
theorem is_unblocked_mono {m m' : ToDoManager} (hs : ShapeEq m m')
    (hge : ∀ x, (getTask m x).done = true → (getTask m' x).done = true)
    {j : TaskId} (h : is_unblocked m j = true) :
    is_unblocked m' j = true := by
  unfold is_unblocked at h ⊢
  rw [(hs.2.2 j).1]
  rw [List.all_eq_true] at h ⊢
  intro d hd
  exact hge d (h d hd)

/-- Conversely, blockedness transfers backwards. -/
theorem is_unblocked_false_mono {m m' : ToDoManager} (hs : ShapeEq m m')
    (hle : ∀ x, (getTask m' x).done = true → (getTask m x).done = true)
    {j : TaskId} (h : is_unblocked m j = false) :
    is_unblocked m' j = false := by
  unfold is_unblocked at h ⊢
  rw [(hs.2.2 j).1]
  rw [List.all_eq_false] at h ⊢
  obtain ⟨d, hd, hdone⟩ := h
  refine ⟨d, hd, ?_⟩
  intro hcon
  exact hdone (hle d hcon)

/-- Postcondition of the undo cascade `_mark_undone_recursive` started at
`i` with visited list `vis` on state `m`: visited tasks only grow and end
undone, `done` only shrinks, tasks still done kept all their done
dependencies, every revert is justified by an undone dependency (or is the
root), the root ends undone, and so do all of the root's dependants. -/
def MuPost (m : ToDoManager) (i : TaskId) (vis : List TaskId)
    (r : ToDoManager × List TaskId) : Prop :=
  vis ⊆ r.2 ∧
  (∀ x ∈ r.2, (getTask r.1 x).done = false) ∧
  (∀ j, (getTask r.1 j).done = true → (getTask m j).done = true) ∧
  (∀ j, (getTask r.1 j).done = true →
    ∀ d ∈ (getTask m j).dependencies, (getTask m d).done = true →
      (getTask r.1 d).done = true) ∧
  (∀ j, (getTask m j).done = true → (getTask r.1 j).done = false →
    j = i ∨ ∃ d ∈ (getTask m j).dependencies,
      (getTask r.1 d).done = false) ∧
  ((getTask r.1 i).done = false) ∧
  (i ∉ vis → ∀ j ∈ (getTask m i).dependancy_of,
    (getTask r.1 j).done = false)

/-- Relational postcondition of a segment of the undo cascade's parent
loop, between an input state `mv` and an output state `F`; dependencies
are read in the reference state `m` (all states involved share its
shape). -/
def MuFoldPost (m : ToDoManager) (mv F : ToDoManager × List TaskId) :
    Prop :=
  ShapeEq mv.1 F.1 ∧ mv.2 ⊆ F.2 ∧
  (∀ x ∈ F.2, (getTask F.1 x).done = false) ∧
  (∀ j, (getTask F.1 j).done = true → (getTask mv.1 j).done = true) ∧
  (∀ j, (getTask F.1 j).done = true →
    ∀ d ∈ (getTask m j).dependencies, (getTask mv.1 d).done = true →
      (getTask F.1 d).done = true) ∧
  (∀ j, (getTask mv.1 j).done = true → (getTask F.1 j).done = false →
    ∃ d ∈ (getTask m j).dependencies, (getTask F.1 d).done = false)

theorem muFoldPost_refl (m : ToDoManager) (mv : ToDoManager × List TaskId)
    (hvis : ∀ x ∈ mv.2, (getTask mv.1 x).done = false) :
    MuFoldPost m mv mv := by
  refine ⟨shapeEq_refl mv.1, fun x hx => hx, hvis, fun j h => h,
    fun j _ d _ hdone => hdone, fun j h1 h2 => ?_⟩
  rw [h1] at h2
  exact absurd h2 (by simp)

theorem muFoldPost_trans {m : ToDoManager}
    {a b c : ToDoManager × List TaskId} (h1 : MuFoldPost m a b)
    (h2 : MuFoldPost m b c) : MuFoldPost m a c := by
  obtain ⟨s1, v1, d1, m1, k1, f1⟩ := h1
  obtain ⟨s2, v2, d2, m2, k2, f2⟩ := h2
  refine ⟨shapeEq_trans s1 s2, fun x hx => v2 (v1 hx), d2,
    fun j hj => m1 j (m2 j hj), ?_, ?_⟩
  · intro j hj d hd hdone
    exact k2 j hj d hd (k1 j (m2 j hj) d hd hdone)
  · intro j h1' h2'
    by_cases hb : (getTask b.1 j).done = true
    · exact f2 j hb h2'
    · obtain ⟨d, hd, hdf⟩ := f1 j h1' (by simpa using hb)
      refine ⟨d, hd, ?_⟩
      by_contra hcon
      rw [Bool.not_eq_false] at hcon
      rw [m2 d hcon] at hdf
      exact absurd hdf (by simp)

/-- The parent loop of the undo cascade, assuming the recursive calls at
smaller fuel satisfy `MuPost`.  `i` is the task whose parents are being
reverted: it is already undone and visited, and every list element is a
managed parent of `i`.  Concludes with the loop-segment postcondition and
with every processed parent undone. -/
theorem muFold_main (fuel : Nat) (m : ToDoManager) (i : TaskId)
    (hwf : WFm m)
    (ihrec : ∀ (m' : ToDoManager) (i' : TaskId) (vis' : List TaskId),
      WFm m' → i' ∈ ids m' →
      (∀ x ∈ vis', (getTask m' x).done = false) →
      unvisCount m' vis' < fuel →
      MuPost m' i' vis' (muRec fuel m' i' vis')) :
    ∀ (P : List TaskId),
      (∀ p ∈ P, p ∈ ids m ∧ i ∈ (getTask m p).dependencies) →
      ∀ (mv : ToDoManager × List TaskId),
        ShapeEq m mv.1 →
        (∀ x ∈ mv.2, (getTask mv.1 x).done = false) →
        i ∈ mv.2 →
        unvisCount m mv.2 < fuel →
        MuFoldPost m mv (P.foldl (fun acc p =>
          if (getTask acc.1 p).done || (getTask acc.1 p).in_progress then
            muRec fuel (applyMarkUndone acc.1 p) p acc.2
          else acc) mv) ∧
        (∀ p ∈ P, (getTask (P.foldl (fun acc p =>
          if (getTask acc.1 p).done || (getTask acc.1 p).in_progress then
            muRec fuel (applyMarkUndone acc.1 p) p acc.2
          else acc) mv).1 p).done = false) := by
  intro P
  induction P with
  | nil =>
    intro _ mv _ hvisd _ _
    exact ⟨muFoldPost_refl m mv hvisd, fun p hp => absurd hp
      (List.not_mem_nil p)⟩
  | cons p P ihP =>
    intro hPmem mv hsha hvisd hiv hcnt
    rw [List.foldl_cons]
    obtain ⟨hpids, hpdeps⟩ := hPmem p (List.mem_cons_self p P)
    by_cases hc : ((getTask mv.1 p).done || (getTask mv.1 p).in_progress)
        = true
    · rw [if_pos hc]
      by_cases hpv : p ∈ mv.2
      · have hdp : (getTask mv.1 p).done = false := hvisd p hpv
        have hnodup' : (ids mv.1).Nodup := by rw [hsha.1]; exact hwf.1
        rw [applyMarkUndone_noop mv.1 p hnodup' hdp,
          muRec_mem fuel mv.1 p mv.2 hpv]
        have hrest := ihP (fun q hq => hPmem q (List.mem_cons_of_mem p hq))
          (mv.1, mv.2) hsha hvisd hiv hcnt
        refine ⟨hrest.1, ?_⟩
        intro q hq
        rcases List.mem_cons.mp hq with rfl | hq'
        · by_contra hcon
          rw [Bool.not_eq_false] at hcon
          rw [hrest.1.2.2.2.1 q hcon] at hdp
          exact absurd hdp (by simp)
        · exact hrest.2 q hq'
      · have hshan : ShapeEq m (applyMarkUndone mv.1 p) :=
          shapeEq_trans hsha (applyMarkUndone_shape mv.1 p)
        have hwfn : WFm (applyMarkUndone mv.1 p) := wfm_of_shape hshan hwf
        have hpidn : p ∈ ids (applyMarkUndone mv.1 p) := by
          rw [hshan.1]; exact hpids
        have hvisn : ∀ x ∈ mv.2,
            (getTask (applyMarkUndone mv.1 p) x).done = false := by
          intro x hx
          have hxp : x ≠ p := fun he => hpv (he ▸ hx)
          rw [applyMarkUndone_done_other mv.1 p x hxp]
          exact hvisd x hx
        have hcntn : unvisCount (applyMarkUndone mv.1 p) mv.2 < fuel := by
          rw [unvisCount_shape hshan]
          exact hcnt
        obtain ⟨hV1, hV2, hM, hK, hF, hR, hPp⟩ :=
          ihrec (applyMarkUndone mv.1 p) p mv.2 hwfn hpidn hvisn hcntn
        have hstep : MuFoldPost m mv
            (muRec fuel (applyMarkUndone mv.1 p) p mv.2) := by
          refine ⟨shapeEq_trans (applyMarkUndone_shape mv.1 p)
              (muRec_shape fuel (applyMarkUndone mv.1 p) p mv.2),
            hV1, hV2, fun j hj => applyMarkUndone_le mv.1 p j (hM j hj),
            ?_, ?_⟩
          · intro j hj d hd hdone
            by_cases hdpq : p = d
            · subst hdpq
              have hjp : j ∈
                  (getTask (applyMarkUndone mv.1 p) p).dependancy_of := by
                rw [(hshan.2.2 p).2.1]
                exact wfm_deps_sound hwf j p hd
              have := hPp hpv j hjp
              rw [this] at hj
              exact absurd hj (by simp)
            · have hnd : (getTask (applyMarkUndone mv.1 p) d).done
                  = true := by
                rw [applyMarkUndone_done_other mv.1 p d
                  (fun he => hdpq he.symm)]
                exact hdone
              exact hK j hj d (by rw [(hshan.2.2 j).1]; exact hd) hnd
          · intro j hj1 hj2
            by_cases hjp : j = p
            · subst hjp
              exact ⟨i, hpdeps, hV2 i (hV1 hiv)⟩
            · have hnj : (getTask (applyMarkUndone mv.1 p) j).done
                  = true := by
                rw [applyMarkUndone_done_other mv.1 p j hjp]
                exact hj1
              rcases hF j hnj hj2 with rfl | ⟨d, hd, hdf⟩
              · exact absurd rfl hjp
              · rw [(hshan.2.2 j).1] at hd
                exact ⟨d, hd, hdf⟩
        have hrest := ihP (fun q hq => hPmem q (List.mem_cons_of_mem p hq))
          (muRec fuel (applyMarkUndone mv.1 p) p mv.2)
          (shapeEq_trans hsha hstep.1)
          hV2 (hV1 hiv)
          (by
            have := unvisCount_anti m hV1
            omega)
        refine ⟨muFoldPost_trans hstep hrest.1, ?_⟩
        intro q hq
        rcases List.mem_cons.mp hq with rfl | hq'
        · by_contra hcon
          rw [Bool.not_eq_false] at hcon
          rw [hrest.1.2.2.2.1 q hcon] at hR
          exact absurd hR (by simp)
        · exact hrest.2 q hq'
    · rw [if_neg hc]
      have hdp : (getTask mv.1 p).done = false := by
        simp only [Bool.or_eq_true, not_or, Bool.not_eq_true] at hc
        exact hc.1
      have hrest := ihP (fun q hq => hPmem q (List.mem_cons_of_mem p hq))
        mv hsha hvisd hiv hcnt
      refine ⟨hrest.1, ?_⟩
      intro q hq
      rcases List.mem_cons.mp hq with rfl | hq'
      · by_contra hcon
        rw [Bool.not_eq_false] at hcon
        rw [hrest.1.2.2.2.1 q hcon] at hdp
        exact absurd hdp (by simp)
      · exact hrest.2 q hq'

/-- The undo cascade `_mark_undone_recursive` satisfies its full
postcondition `MuPost` whenever the fuel exceeds the number of unvisited
managed tasks. -/
theorem muRec_main (fuel : Nat) :
    ∀ (m : ToDoManager) (i : TaskId) (vis : List TaskId),
      WFm m → i ∈ ids m →
      (∀ x ∈ vis, (getTask m x).done = false) →
      unvisCount m vis < fuel →
      MuPost m i vis (muRec fuel m i vis) := by
  induction fuel with
  | zero => intro m i vis _ _ _ hf; omega
  | succ fuel ih =>
    intro m i vis hwf hi hvis hfuel
    by_cases hv : i ∈ vis
    · rw [muRec_mem (fuel + 1) m i vis hv]
      refine ⟨fun x hx => hx, hvis, fun j h => h,
        fun j _ d _ hdone => hdone, ?_, hvis i hv,
        fun hni => absurd hv hni⟩
      intro j h1 h2
      rw [h1] at h2
      exact absurd h2 (by simp)
    · rw [muRec_notmem fuel m i vis hv]
      have hsha1 : ShapeEq m (applyMarkUndone m i) := applyMarkUndone_shape m i
      have hP : (getTask (applyMarkUndone m i) i).dependancy_of
          = (getTask m i).dependancy_of := (hsha1.2.2 i).2.1
      have hvis1 : ∀ x ∈ i :: vis,
          (getTask (applyMarkUndone m i) x).done = false := by
        intro x hx
        rcases List.mem_cons.mp hx with rfl | hx'
        · exact applyMarkUndone_done_self m x hi
        · have hxi : x ≠ i := fun he => hv (he ▸ hx')
          rw [applyMarkUndone_done_other m i x hxi]
          exact hvis x hx'
      have hcnt1 : unvisCount m (i :: vis) < fuel := by
        have := unvisCount_cons_lt m i vis hwf.1 hi hv
        omega
      obtain ⟨hfp, hfe⟩ := muFold_main fuel m i hwf ih
        ((getTask (applyMarkUndone m i) i).dependancy_of)
        (fun p hp => by
          rw [hP] at hp
          exact ⟨wfm_pars_closed hwf i p hp, wfm_pars_sound hwf i p hp⟩)
        (applyMarkUndone m i, i :: vis)
        hsha1 hvis1 (List.mem_cons_self i vis) hcnt1
      obtain ⟨hS, hSub, hD, hMono, hKept, hFlip⟩ := hfp
      refine ⟨fun x hx => hSub (List.mem_cons_of_mem i hx), hD,
        fun j hj => applyMarkUndone_le m i j (hMono j hj), ?_, ?_,
        hD i (hSub (List.mem_cons_self i vis)), ?_⟩
      · intro j hj d hd hdone
        by_cases hdi : i = d
        · subst hdi
          have hjp : j ∈ (getTask m i).dependancy_of :=
            wfm_deps_sound hwf j i hd
          have := hfe j (by rw [hP]; exact hjp)
          rw [this] at hj
          exact absurd hj (by simp)
        · have hnd : (getTask (applyMarkUndone m i) d).done = true := by
            rw [applyMarkUndone_done_other m i d (fun he => hdi he.symm)]
            exact hdone
          exact hKept j hj d hd hnd
      · intro j hj1 hj2
        by_cases hji : j = i
        · exact Or.inl hji
        · have hnj : (getTask (applyMarkUndone m i) j).done = true := by
            rw [applyMarkUndone_done_other m i j hji]
            exact hj1
          exact Or.inr (hFlip j hnj hj2)
      · intro _ j hj
        exact hfe j (by rw [hP]; exact hj)

/-- Postcondition of the completion cascade `_mark_done_recursive` at `i`:
the visited list grows and ends all-done, `done` only grows, every newly
completed task ends unblocked, the root ends done, and a project left
undone but unblocked was already unblocked at entry (and, when the root
was fresh, does not have the root among its dependencies). -/
def MdPost (m : ToDoManager) (i : TaskId) (vis : List TaskId)
    (r : ToDoManager × List TaskId) : Prop :=
  vis ⊆ r.2 ∧
  (∀ x ∈ r.2, (getTask r.1 x).done = true) ∧
  (∀ j, (getTask m j).done = true → (getTask r.1 j).done = true) ∧
  (∀ j, (getTask m j).done = false → (getTask r.1 j).done = true →
    is_unblocked r.1 j = true) ∧
  ((getTask r.1 i).done = true) ∧
  (∀ j, (getTask m j).is_project = true → (getTask r.1 j).done = false →
    is_unblocked r.1 j = true →
    is_unblocked m j = true ∧ (i ∉ vis → i ∉ (getTask m j).dependencies))

/-- Relational postcondition of a segment of the completion cascade's
parent loop between states `mv` and `F` (projects are read in the
reference state `m`, which all involved states share the shape of). -/
def MdFoldPost (m : ToDoManager) (mv F : ToDoManager × List TaskId) :
    Prop :=
  ShapeEq mv.1 F.1 ∧ mv.2 ⊆ F.2 ∧
  (∀ x ∈ F.2, (getTask F.1 x).done = true) ∧
  (∀ j, (getTask mv.1 j).done = true → (getTask F.1 j).done = true) ∧
  (∀ j, (getTask mv.1 j).done = false → (getTask F.1 j).done = true →
    is_unblocked F.1 j = true) ∧
  (∀ j, (getTask m j).is_project = true → (getTask F.1 j).done = false →
    is_unblocked F.1 j = true → is_unblocked mv.1 j = true)

theorem mdFoldPost_refl (m : ToDoManager)
    (mv : ToDoManager × List TaskId)
    (hvis : ∀ x ∈ mv.2, (getTask mv.1 x).done = true) :
    MdFoldPost m mv mv := by
  refine ⟨shapeEq_refl mv.1, fun x hx => hx, hvis, fun j h => h, ?_,
    fun j _ _ hu => hu⟩
  intro j h1 h2
  rw [h2] at h1
  exact absurd h1 (by simp)

theorem mdFoldPost_trans {m : ToDoManager}
    {a b c : ToDoManager × List TaskId} (h1 : MdFoldPost m a b)
    (h2 : MdFoldPost m b c) : MdFoldPost m a c := by
  obtain ⟨s1, v1, d1, g1, b1, e1⟩ := h1
  obtain ⟨s2, v2, d2, g2, b2, e2⟩ := h2
  refine ⟨shapeEq_trans s1 s2, fun x hx => v2 (v1 hx), d2,
    fun j hj => g2 j (g1 j hj), ?_, ?_⟩
  · intro j hj1 hj2
    by_cases hb : (getTask b.1 j).done = true
    · exact is_unblocked_mono s2 g2 (b1 j hj1 hb)
    · exact b2 j (by simpa using hb) hj2
  · intro j hp hd hu
    have hdb : (getTask b.1 j).done = false := by
      by_contra hcon
      rw [Bool.not_eq_false] at hcon
      rw [g2 j hcon] at hd
      exact absurd hd (by simp)
    exact e1 j hp hdb (e2 j hp hd hu)

theorem mdStep_eq (today : Int) (fuel : Nat)
    (mv : ToDoManager × List TaskId) (p : TaskId)
    (hc : ((getTask mv.1 p).is_project && is_unblocked mv.1 p) = true) :
    (if (getTask mv.1 p).is_project && is_unblocked mv.1 p then
       let total := sumActual mv.1 p
       mdRec today fuel (applyMarkDone mv.1 p (some total) today) p
         (some total) mv.2
     else mv)
    = mdRec today fuel
        (applyMarkDone mv.1 p (some (sumActual mv.1 p)) today) p
        (some (sumActual mv.1 p)) mv.2 := by
  rw [if_pos hc]

/-- The parent loop of the completion cascade, assuming the recursive
calls at smaller fuel satisfy `MdPost`.  Concludes with the loop-segment
postcondition and that every listed parent project already unblocked at
segment entry ends done. -/
theorem mdFold_main (today : Int) (fuel : Nat) (m : ToDoManager)
    (hwf : WFm m)
    (ihrec : ∀ (m' : ToDoManager) (i' : TaskId) (a' : Option Int)
        (vis' : List TaskId),
      WFm m' → i' ∈ ids m' →
      (∀ x ∈ vis', (getTask m' x).done = true) →
      ((getTask m' i').done = true ∨ is_unblocked m' i' = true) →
      unvisCount m' vis' < fuel →
      MdPost m' i' vis' (mdRec today fuel m' i' a' vis')) :
    ∀ (P : List TaskId),
      (∀ p ∈ P, p ∈ ids m) →
      ∀ (mv : ToDoManager × List TaskId),
        ShapeEq m mv.1 →
        (∀ x ∈ mv.2, (getTask mv.1 x).done = true) →
        unvisCount m mv.2 < fuel →
        MdFoldPost m mv (P.foldl (fun acc p =>
          if (getTask acc.1 p).is_project && is_unblocked acc.1 p then
            let total := sumActual acc.1 p
            mdRec today fuel (applyMarkDone acc.1 p (some total) today) p
              (some total) acc.2
          else acc) mv) ∧
        (∀ p ∈ P, (getTask m p).is_project = true →
          is_unblocked mv.1 p = true →
          (getTask (P.foldl (fun acc p =>
            if (getTask acc.1 p).is_project && is_unblocked acc.1 p then
              let total := sumActual acc.1 p
              mdRec today fuel (applyMarkDone acc.1 p (some total) today)
                p (some total) acc.2
            else acc) mv).1 p).done = true) := by
  intro P
  induction P with
  | nil =>
    intro _ mv _ hvisd _
    exact ⟨mdFoldPost_refl m mv hvisd, fun p hp => absurd hp
      (List.not_mem_nil p)⟩
  | cons p P ihP =>
    intro hPmem mv hsha hvisd hcnt
    rw [List.foldl_cons]
    have hpids : p ∈ ids m := hPmem p (List.mem_cons_self p P)
    by_cases hc : ((getTask mv.1 p).is_project && is_unblocked mv.1 p)
        = true
    · rw [mdStep_eq today fuel mv p hc]
      have hcp : (getTask mv.1 p).is_project = true ∧
          is_unblocked mv.1 p = true := by
        simpa [Bool.and_eq_true] using hc
      by_cases hpv : p ∈ mv.2
      · have hdp : (getTask mv.1 p).done = true := hvisd p hpv
        have hnodup' : (ids mv.1).Nodup := by rw [hsha.1]; exact hwf.1
        rw [applyMarkDone_noop mv.1 p (some (sumActual mv.1 p)) today
          hnodup' hdp, mdRec_mem today fuel mv.1 p
          (some (sumActual mv.1 p)) mv.2 hpv]
        have hrest := ihP (fun q hq => hPmem q (List.mem_cons_of_mem p hq))
          (mv.1, mv.2) hsha hvisd hcnt
        refine ⟨hrest.1, ?_⟩
        intro q hq hqp hqu
        rcases List.mem_cons.mp hq with rfl | hq'
        · exact hrest.1.2.2.2.1 q hdp
        · exact hrest.2 q hq' hqp hqu
      · have hshn1 : ShapeEq mv.1
            (applyMarkDone mv.1 p (some (sumActual mv.1 p)) today) :=
          applyMarkDone_shape mv.1 p (some (sumActual mv.1 p)) today
        have hshan : ShapeEq m
            (applyMarkDone mv.1 p (some (sumActual mv.1 p)) today) :=
          shapeEq_trans hsha hshn1
        have hwfn : WFm
            (applyMarkDone mv.1 p (some (sumActual mv.1 p)) today) :=
          wfm_of_shape hshan hwf
        have hpidn : p ∈ ids
            (applyMarkDone mv.1 p (some (sumActual mv.1 p)) today) := by
          rw [hshan.1]; exact hpids
        have hpmem1 : p ∈ ids mv.1 := by rw [hsha.1]; exact hpids
        have hdn : (getTask
            (applyMarkDone mv.1 p (some (sumActual mv.1 p)) today)
            p).done = true :=
          applyMarkDone_done_self mv.1 p (some (sumActual mv.1 p)) today
            hpmem1 (Or.inr hcp.2)
        have hvisn : ∀ x ∈ mv.2, (getTask
            (applyMarkDone mv.1 p (some (sumActual mv.1 p)) today)
            x).done = true :=
          fun x hx => applyMarkDone_ge mv.1 p (some (sumActual mv.1 p))
            today x (hvisd x hx)
        have hcntn : unvisCount
            (applyMarkDone mv.1 p (some (sumActual mv.1 p)) today) mv.2
            < fuel := by
          rw [unvisCount_shape hshan]
          exact hcnt
        obtain ⟨hV1, hV2, hG, hB, hR, hE⟩ :=
          ihrec (applyMarkDone mv.1 p (some (sumActual mv.1 p)) today) p
            (some (sumActual mv.1 p)) mv.2 hwfn hpidn hvisn (Or.inl hdn)
            hcntn
        have hstepshape : ShapeEq mv.1
            (mdRec today fuel
              (applyMarkDone mv.1 p (some (sumActual mv.1 p)) today) p
              (some (sumActual mv.1 p)) mv.2).1 :=
          shapeEq_trans hshn1 (mdRec_shape today fuel
            (applyMarkDone mv.1 p (some (sumActual mv.1 p)) today) p
            (some (sumActual mv.1 p)) mv.2)
        have hstepG : ∀ j, (getTask mv.1 j).done = true →
            (getTask (mdRec today fuel
              (applyMarkDone mv.1 p (some (sumActual mv.1 p)) today) p
              (some (sumActual mv.1 p)) mv.2).1 j).done = true :=
          fun j hj => hG j (applyMarkDone_ge mv.1 p
            (some (sumActual mv.1 p)) today j hj)
        have hstep : MdFoldPost m mv (mdRec today fuel
            (applyMarkDone mv.1 p (some (sumActual mv.1 p)) today) p
            (some (sumActual mv.1 p)) mv.2) := by
          refine ⟨hstepshape, hV1, hV2, hstepG, ?_, ?_⟩
          · intro j hj1 hj2
            by_cases hjp : j = p
            · subst hjp
              exact is_unblocked_mono hstepshape hstepG hcp.2
            · have hnj : (getTask
                  (applyMarkDone mv.1 p (some (sumActual mv.1 p)) today)
                  j).done = (getTask mv.1 j).done :=
                applyMarkDone_done_other mv.1 p (some (sumActual mv.1 p))
                  today j hjp
              by_cases hnb : (getTask
                  (applyMarkDone mv.1 p (some (sumActual mv.1 p)) today)
                  j).done = true
              · rw [hnj, hj1] at hnb
                exact absurd hnb (by simp)
              · exact hB j (by simpa using hnb) hj2
          · intro j hp' hd hu
            obtain ⟨hun, hpd⟩ := hE j
              (by rw [(hshan.2.2 j).2.2]; exact hp') hd hu
            have hpdj : p ∉ (getTask
                (applyMarkDone mv.1 p (some (sumActual mv.1 p)) today)
                j).dependencies := hpd hpv
            unfold is_unblocked at hun ⊢
            rw [List.all_eq_true] at hun ⊢
            intro d hd'
            have hdmem : d ∈ (getTask
                (applyMarkDone mv.1 p (some (sumActual mv.1 p)) today)
                j).dependencies := by
              rw [(hshn1.2.2 j).1]
              exact hd'
            have hdp2 : d ≠ p := fun he => hpdj (he ▸ hdmem)
            have hall := hun d hdmem
            simp only at hall ⊢
            rw [applyMarkDone_done_other mv.1 p (some (sumActual mv.1 p))
              today d hdp2] at hall
            exact hall
        have hrest := ihP (fun q hq => hPmem q (List.mem_cons_of_mem p hq))
          (mdRec today fuel
            (applyMarkDone mv.1 p (some (sumActual mv.1 p)) today) p
            (some (sumActual mv.1 p)) mv.2)
          (shapeEq_trans hsha hstepshape) hV2
          (by
            have := unvisCount_anti m hV1
            omega)
        refine ⟨mdFoldPost_trans hstep hrest.1, ?_⟩
        intro q hq hqp hqu
        rcases List.mem_cons.mp hq with rfl | hq'
        · exact hrest.1.2.2.2.1 q hR
        · exact hrest.2 q hq' hqp
            (is_unblocked_mono hstepshape hstepG hqu)
    · rw [if_neg hc]
      have hrest := ihP (fun q hq => hPmem q (List.mem_cons_of_mem p hq))
        mv hsha hvisd hcnt
      refine ⟨hrest.1, ?_⟩
      intro q hq hqp hqu
      rcases List.mem_cons.mp hq with rfl | hq'
      · exfalso
        apply hc
        rw [Bool.and_eq_true]
        refine ⟨?_, hqu⟩
        rw [(hsha.2.2 q).2.2]
        exact hqp
      · exact hrest.2 q hq' hqp hqu

/-- The completion cascade `_mark_done_recursive` satisfies its full
postcondition `MdPost` whenever the root is done or unblocked and the
fuel exceeds the number of unvisited managed tasks. -/
theorem mdRec_main (today : Int) (fuel : Nat) :
    ∀ (m : ToDoManager) (i : TaskId) (a : Option Int)
      (vis : List TaskId),
      WFm m → i ∈ ids m →
      (∀ x ∈ vis, (getTask m x).done = true) →
      ((getTask m i).done = true ∨ is_unblocked m i = true) →
      unvisCount m vis < fuel →
      MdPost m i vis (mdRec today fuel m i a vis) := by
  induction fuel with
  | zero => intro m i a vis _ _ _ _ hf; omega
  | succ fuel ih =>
    intro m i a vis hwf hi hvis hroot hfuel
    by_cases hv : i ∈ vis
    · rw [mdRec_mem today (fuel + 1) m i a vis hv]
      refine ⟨fun x hx => hx, hvis, fun j h => h, ?_, hvis i hv,
        fun j _ _ hu => ⟨hu, fun hni => absurd hv hni⟩⟩
      intro j h1 h2
      rw [h2] at h1
      exact absurd h1 (by simp)
    · rw [mdRec_notmem today fuel m i a vis hv]
      have hsh1 : ShapeEq m (applyMarkDone m i a today) :=
        applyMarkDone_shape m i a today
      have hd1 : (getTask (applyMarkDone m i a today) i).done = true :=
        applyMarkDone_done_self m i a today hi hroot
      have hP : (getTask (applyMarkDone m i a today) i).dependancy_of
          = (getTask m i).dependancy_of := (hsh1.2.2 i).2.1
      have hvis1 : ∀ x ∈ i :: vis,
          (getTask (applyMarkDone m i a today) x).done = true := by
        intro x hx
        rcases List.mem_cons.mp hx with rfl | hx'
        · exact hd1
        · exact applyMarkDone_ge m i a today x (hvis x hx')
      have hcnt1 : unvisCount m (i :: vis) < fuel := by
        have := unvisCount_cons_lt m i vis hwf.1 hi hv
        omega
      obtain ⟨hfp, hfe⟩ := mdFold_main today fuel m hwf ih
        ((getTask (applyMarkDone m i a today) i).dependancy_of)
        (fun p hp => by
          rw [hP] at hp
          exact wfm_pars_closed hwf i p hp)
        (applyMarkDone m i a today, i :: vis) hsh1 hvis1 hcnt1
      obtain ⟨hS, hSub, hD, hG, hB, hE⟩ := hfp
      have hGall : ∀ j, (getTask m j).done = true →
          (getTask ((((getTask (applyMarkDone m i a today)
              i).dependancy_of).foldl (fun acc p =>
            if (getTask acc.1 p).is_project && is_unblocked acc.1 p then
              let total := sumActual acc.1 p
              mdRec today fuel (applyMarkDone acc.1 p (some total) today)
                p (some total) acc.2
            else acc) (applyMarkDone m i a today, i :: vis)).1)
            j).done = true :=
        fun j hj => hG j (applyMarkDone_ge m i a today j hj)
      refine ⟨fun x hx => hSub (List.mem_cons_of_mem i hx), hD, hGall,
        ?_, hD i (hSub (List.mem_cons_self i vis)), ?_⟩
      · intro j hj1 hj2
        by_cases hji : j = i
        · subst hji
          rcases hroot with hr | hr
          · rw [hr] at hj1
            exact absurd hj1 (by simp)
          · exact is_unblocked_mono (shapeEq_trans hsh1 hS) hGall hr
        · have hnj : (getTask (applyMarkDone m i a today) j).done
              = false := by
            rw [applyMarkDone_done_other m i a today j hji]
            exact hj1
          exact hB j hnj hj2
      · intro j hp hd hu
        have hu1 : is_unblocked (applyMarkDone m i a today) j = true :=
          hE j hp hd hu
        have hnin : i ∉ (getTask m j).dependencies := by
          intro hin
          have hjpar : j ∈ (getTask m i).dependancy_of :=
            wfm_deps_sound hwf j i hin
          have := hfe j (by rw [hP]; exact hjpar) hp hu1
          rw [this] at hd
          exact absurd hd (by simp)
        refine ⟨?_, fun _ => hnin⟩
        unfold is_unblocked at hu1 ⊢
        rw [List.all_eq_true] at hu1 ⊢
        intro d hd'
        have hdm1 : d ∈ (getTask (applyMarkDone m i a today)
            j).dependencies := by
          rw [(hsh1.2.2 j).1]
          exact hd'
        have hdi : d ≠ i := fun he => hnin (he ▸ hd')
        have hdd := hu1 d hdm1
        simp only at hdd ⊢
        rw [applyMarkDone_done_other m i a today d hdi] at hdd
        exact hdd

/-- First corrective condition of the reconciliation pass: done but
blocked. -/
def cond1 (m : ToDoManager) (i : TaskId) : Bool :=
  (getTask m i).done && !is_unblocked m i

/-- Second corrective condition of the reconciliation pass: an undone
unblocked project. -/
def cond2 (m : ToDoManager) (i : TaskId) : Bool :=
  !(getTask m i).done && (getTask m i).is_project && is_unblocked m i

/-- Task `i` needs no correction: neither branch of the
`update_todo_states` loop body fires on it. -/
def consistentAt (m : ToDoManager) (i : TaskId) : Prop :=
  cond1 m i = false ∧ cond2 m i = false

/-- One iteration of the `update_todo_states` loop. -/
def passStep (today : Int) (m : ToDoManager) (i : TaskId) : ToDoManager :=
  if (getTask m i).done && !is_unblocked m i then
    (muRec (bigFuel m) m i []).1
  else if !(getTask m i).done && (getTask m i).is_project &&
      is_unblocked m i then
    (mdRec today (bigFuel m) m i none []).1
  else m

theorem update_todo_states_eq (today : Int) (m : ToDoManager) :
    update_todo_states today m = (ids m).foldl (passStep today) m := rfl

theorem is_unblocked_false_iff (m : ToDoManager) (j : TaskId) :
    is_unblocked m j = false ↔
    ∃ d ∈ (getTask m j).dependencies, (getTask m d).done = false := by
  unfold is_unblocked
  rw [List.all_eq_false]
  constructor
  · rintro ⟨d, hd, hdone⟩
    exact ⟨d, hd, by simpa using hdone⟩
  · rintro ⟨d, hd, hdone⟩
    exact ⟨d, hd, by simp [hdone]⟩

/-- One pass iteration at a managed task: the shape is preserved, the
processed task ends consistent, and the iteration cannot create either
corrective condition at any task. -/
theorem passStep_main (today : Int) (m : ToDoManager) (i : TaskId)
    (hwf : WFm m) (hi : i ∈ ids m) :
    ShapeEq m (passStep today m i) ∧
    consistentAt (passStep today m i) i ∧
    (∀ j, cond1 (passStep today m i) j = true → cond1 m j = true) ∧
    (∀ j, cond2 (passStep today m i) j = true → cond2 m j = true) := by
  unfold passStep
  by_cases h1 : ((getTask m i).done && !is_unblocked m i) = true
  · rw [if_pos h1]
    have h1' := h1
    simp only [Bool.and_eq_true, Bool.not_eq_true'] at h1'
    have hfuel : unvisCount m [] < bigFuel m := by
      rw [unvisCount_nil]
      unfold bigFuel
      omega
    obtain ⟨hV1, hV2, hM, hK, hF, hR, hPc⟩ :=
      muRec_main (bigFuel m) m i [] hwf hi
        (fun x hx => absurd hx (List.not_mem_nil x)) hfuel
    have hsh : ShapeEq m (muRec (bigFuel m) m i []).1 :=
      muRec_shape (bigFuel m) m i []
    have hub' : is_unblocked (muRec (bigFuel m) m i []).1 i = false :=
      is_unblocked_false_mono hsh hM h1'.2
    have hc1 : ∀ j, cond1 (muRec (bigFuel m) m i []).1 j = true →
        cond1 m j = true := by
      intro j hj
      unfold cond1 at hj ⊢
      simp only [Bool.and_eq_true, Bool.not_eq_true'] at hj
      obtain ⟨hdj, huj⟩ := hj
      obtain ⟨d, hd, hdd⟩ :=
        (is_unblocked_false_iff (muRec (bigFuel m) m i []).1 j).mp huj
      rw [(hsh.2.2 j).1] at hd
      by_cases hmd : (getTask m d).done = true
      · rw [hK j hdj d hd hmd] at hdd
        exact absurd hdd (by simp)
      · simp only [Bool.and_eq_true, Bool.not_eq_true']
        exact ⟨hM j hdj, (is_unblocked_false_iff m j).mpr
          ⟨d, hd, by simpa using hmd⟩⟩
    have hc2 : ∀ j, cond2 (muRec (bigFuel m) m i []).1 j = true →
        cond2 m j = true := by
      intro j hj
      unfold cond2 at hj ⊢
      simp only [Bool.and_eq_true, Bool.not_eq_true'] at hj
      obtain ⟨⟨hdj, hpj⟩, huj⟩ := hj
      have hum : is_unblocked m j = true := by
        by_contra hcon
        have hmf : is_unblocked m j = false := by simpa using hcon
        rw [is_unblocked_false_mono hsh hM hmf] at huj
        exact absurd huj (by simp)
      by_cases hmj : (getTask m j).done = true
      · rcases hF j hmj hdj with rfl | ⟨d, hd, hdd⟩
        · rw [hub'] at huj
          exact absurd huj (by simp)
        · have : is_unblocked (muRec (bigFuel m) m i []).1 j = false :=
            (is_unblocked_false_iff (muRec (bigFuel m) m i []).1 j).mpr
              ⟨d, by rw [(hsh.2.2 j).1]; exact hd, hdd⟩
          rw [this] at huj
          exact absurd huj (by simp)
      · simp only [Bool.and_eq_true, Bool.not_eq_true']
        exact ⟨⟨by simpa using hmj,
          by rw [← (hsh.2.2 j).2.2]; exact hpj⟩, hum⟩
    refine ⟨hsh, ⟨?_, ?_⟩, hc1, hc2⟩
    · unfold cond1
      rw [hR]
      simp
    · unfold cond2
      rw [hub']
      simp
  · rw [if_neg h1]
    by_cases h2 : (!(getTask m i).done && (getTask m i).is_project &&
        is_unblocked m i) = true
    · rw [if_pos h2]
      have h2' := h2
      simp only [Bool.and_eq_true, Bool.not_eq_true'] at h2'
      obtain ⟨⟨hdi, hpi⟩, hui⟩ := h2'
      have hfuel : unvisCount m [] < bigFuel m := by
        rw [unvisCount_nil]
        unfold bigFuel
        omega
      obtain ⟨hV1, hV2, hG, hB, hR, hE⟩ :=
        mdRec_main today (bigFuel m) m i none [] hwf hi
          (fun x hx => absurd hx (List.not_mem_nil x)) (Or.inr hui) hfuel
      have hsh : ShapeEq m (mdRec today (bigFuel m) m i none []).1 :=
        mdRec_shape today (bigFuel m) m i none []
      have hui' : is_unblocked (mdRec today (bigFuel m) m i none []).1 i
          = true := hB i hdi hR
      have hc1 : ∀ j, cond1 (mdRec today (bigFuel m) m i none []).1 j
          = true → cond1 m j = true := by
        intro j hj
        unfold cond1 at hj ⊢
        simp only [Bool.and_eq_true, Bool.not_eq_true'] at hj
        obtain ⟨hdj, huj⟩ := hj
        by_cases hmj : (getTask m j).done = true
        · obtain ⟨d, hd, hdd⟩ := (is_unblocked_false_iff
            (mdRec today (bigFuel m) m i none []).1 j).mp huj
          rw [(hsh.2.2 j).1] at hd
          have hmd : (getTask m d).done = false := by
            by_contra hcon
            rw [Bool.not_eq_false] at hcon
            rw [hG d hcon] at hdd
            exact absurd hdd (by simp)
          simp only [Bool.and_eq_true, Bool.not_eq_true']
          exact ⟨hmj, (is_unblocked_false_iff m j).mpr ⟨d, hd, hmd⟩⟩
        · rw [hB j (by simpa using hmj) hdj] at huj
          exact absurd huj (by simp)
      have hc2 : ∀ j, cond2 (mdRec today (bigFuel m) m i none []).1 j
          = true → cond2 m j = true := by
        intro j hj
        unfold cond2 at hj ⊢
        simp only [Bool.and_eq_true, Bool.not_eq_true'] at hj
        obtain ⟨⟨hdj, hpj⟩, huj⟩ := hj
        have hpm : (getTask m j).is_project = true := by
          rw [← (hsh.2.2 j).2.2]
          exact hpj
        obtain ⟨hum, _⟩ := hE j hpm hdj huj
        have hdm : (getTask m j).done = false := by
          by_contra hcon
          rw [Bool.not_eq_false] at hcon
          rw [hG j hcon] at hdj
          exact absurd hdj (by simp)
        simp only [Bool.and_eq_true, Bool.not_eq_true']
        exact ⟨⟨hdm, hpm⟩, hum⟩
      refine ⟨hsh, ⟨?_, ?_⟩, hc1, hc2⟩
      · unfold cond1
        rw [hui']
        simp
      · unfold cond2
        rw [hR]
        simp
    · rw [if_neg h2]
      exact ⟨shapeEq_refl m,
        ⟨by unfold cond1; simpa using h1, by unfold cond2; simpa using h2⟩,
        fun j h => h, fun j h => h⟩

/-- Folding pass iterations over a list of managed tasks keeps the shape,
keeps previously reconciled tasks consistent, and leaves every processed
task consistent. -/
theorem passFold_main (today : Int) (m : ToDoManager) (hwf : WFm m) :
    ∀ (L : List TaskId), (∀ p ∈ L, p ∈ ids m) →
      ∀ (s : ToDoManager) (acc : List TaskId), ShapeEq m s →
        (∀ j ∈ acc, consistentAt s j) →
        ShapeEq m (L.foldl (passStep today) s) ∧
        (∀ j ∈ acc, consistentAt (L.foldl (passStep today) s) j) ∧
        (∀ p ∈ L, consistentAt (L.foldl (passStep today) s) p) := by
  intro L
  induction L with
  | nil =>
    intro _ s acc hsh hacc
    exact ⟨hsh, hacc, fun p hp => absurd hp (List.not_mem_nil p)⟩
  | cons p L ihL =>
    intro hmem s acc hsh hacc
    rw [List.foldl_cons]
    have hps : p ∈ ids s := by
      rw [hsh.1]
      exact hmem p (List.mem_cons_self p L)
    have hwfs : WFm s := wfm_of_shape hsh hwf
    obtain ⟨hsh1, hconsp, hc1, hc2⟩ := passStep_main today s p hwfs hps
    have hpres : ∀ j, consistentAt s j →
        consistentAt (passStep today s p) j := by
      intro j hj
      obtain ⟨hj1, hj2⟩ := hj
      constructor
      · by_contra hcon
        rw [Bool.not_eq_false] at hcon
        rw [hc1 j hcon] at hj1
        exact absurd hj1 (by simp)
      · by_contra hcon
        rw [Bool.not_eq_false] at hcon
        rw [hc2 j hcon] at hj2
        exact absurd hj2 (by simp)
    have hrest := ihL (fun q hq => hmem q (List.mem_cons_of_mem p hq))
      (passStep today s p) (p :: acc) (shapeEq_trans hsh hsh1)
      (by
        intro j hj
        rcases List.mem_cons.mp hj with rfl | hj'
        · exact hconsp
        · exact hpres j (hacc j hj'))
    refine ⟨hrest.1, ?_, ?_⟩
    · intro j hj
      exact hrest.2.1 j (List.mem_cons_of_mem p hj)
    · intro q hq
      rcases List.mem_cons.mp hq with rfl | hq'
      · exact hrest.2.1 _ (List.mem_cons_self _ acc)
      · exact hrest.2.2 q hq'

/-- After one reconciliation pass on a well-formed graph, no task
satisfies either corrective condition. -/
theorem update_todo_states_consistent (today : Int) (m : ToDoManager)
    (hwf : WFm m) :
    ShapeEq m (update_todo_states today m) ∧
    ∀ j ∈ ids m, consistentAt (update_todo_states today m) j := by
  rw [update_todo_states_eq]
  obtain ⟨hsh, _, hall⟩ := passFold_main today m hwf (ids m)
    (fun p hp => hp) m [] (shapeEq_refl m)
    (fun j hj => absurd hj (List.not_mem_nil j))
  exact ⟨hsh, hall⟩

/-- On a state where no task satisfies a corrective condition, the
reconciliation pass is the identity. -/
theorem update_todo_states_noop (today : Int) (m : ToDoManager)
    (hcons : ∀ j ∈ ids m, consistentAt m j) :
    update_todo_states today m = m := by
  rw [update_todo_states_eq]
  have hgen : ∀ (L : List TaskId), (∀ p ∈ L, consistentAt m p) →
      L.foldl (passStep today) m = m := by
    intro L
    induction L with
    | nil => intro _; rfl
    | cons p L ihL =>
      intro hmem
      rw [List.foldl_cons]
      have hp := hmem p (List.mem_cons_self p L)
      have h1' : ¬(((getTask m p).done && !is_unblocked m p) = true) := by
        have h := hp.1
        unfold cond1 at h
        rw [h]
        simp
      have h2' : ¬((!(getTask m p).done && (getTask m p).is_project &&
          is_unblocked m p) = true) := by
        have h := hp.2
        unfold cond2 at h
        rw [h]
        simp
      have hstep : passStep today m p = m := by
        unfold passStep
        rw [if_neg h1', if_neg h2']
      rw [hstep]
      exact ihL (fun q hq => hmem q (List.mem_cons_of_mem p hq))
  exact hgen (ids m) hcons

/-- C4: on a well-formed graph (ids unique, edges closed and mutually
inverse — the invariant the manager maintains), running the
reconciliation pass `update_todo_states` twice in a row changes nothing
on the second run: after one pass no task satisfies either corrective
condition (done but blocked; or undone, a project, and unblocked), so
the second pass performs zero state changes, whatever dates the two runs
use. -/
theorem c4_reconcile_idempotent (today today' : Int) (m : ToDoManager)
    (hwf : WFm m) :
    (∀ j ∈ ids (update_todo_states today m),
      consistentAt (update_todo_states today m) j) ∧
    update_todo_states today' (update_todo_states today m)
      = update_todo_states today m := by
  obtain ⟨hsh, hcons⟩ := update_todo_states_consistent today m hwf
  have hcons' : ∀ j ∈ ids (update_todo_states today m),
      consistentAt (update_todo_states today m) j := by
    intro j hj
    rw [hsh.1] at hj
    exact hcons j hj
  exact ⟨hcons', update_todo_states_noop today' _ hcons'⟩

/-- An undone dependency of task 1. -/
def dC4a : ToDo := { defaultToDo with title := "a", dependancy_of := [1] }

/-- A done-yet-blocked task (first corrective condition fires). -/
def dC4b : ToDo :=
  { defaultToDo with title := "b", done := true, dependencies := [0] }

/-- An undone unblocked project (second corrective condition fires). -/
def dC4c : ToDo := { defaultToDo with title := "c", is_project := true }

def mC4 : ToDoManager :=
  { todos := [(0, dC4a), (1, dC4b), (2, dC4c)], nextId := 3 }

theorem c4_reconcile_idempotent_witness :
    WFm mC4 ∧
    ((∀ j ∈ ids (update_todo_states 5 mC4),
      consistentAt (update_todo_states 5 mC4) j) ∧
     update_todo_states 6 (update_todo_states 5 mC4)
       = update_todo_states 5 mC4) :=
  ⟨by decide, c4_reconcile_idempotent 5 6 mC4 (by decide)⟩

/-! Freshness of the id counter: every stored id and every dependency
entry is below `nextId`, so a newly minted id is unreferenced. -/

def Fresh (m : ToDoManager) : Prop :=
  (∀ i ∈ ids m, i < m.nextId) ∧
  (∀ i ∈ ids m, ∀ d ∈ (getTask m i).dependencies, d < m.nextId)

instance decFresh (m : ToDoManager) : Decidable (Fresh m) := by
  unfold Fresh
  infer_instance

instance decConsistentAt (m : ToDoManager) (i : TaskId) :
    Decidable (consistentAt m i) := by
  unfold consistentAt
  infer_instance

theorem fresh_notmem (m : ToDoManager) (h : Fresh m) :
    m.nextId ∉ ids m := by
  intro hmem
  exact absurd (h.1 m.nextId hmem) (Nat.lt_irrefl m.nextId)

/-- Insertion of a task under the next id (the effect of `add_todo` when
the duplicate check does not fire, before the reconciliation pass). -/
def appendTask (m : ToDoManager) (t : ToDo) : ToDoManager :=
  { todos := m.todos ++ [(m.nextId, t)], nextId := m.nextId + 1 }

theorem ids_appendTask (m : ToDoManager) (t : ToDo) :
    ids (appendTask m t) = ids m ++ [m.nextId] := by
  simp [ids, appendTask]

theorem nextId_appendTask (m : ToDoManager) (t : ToDo) :
    (appendTask m t).nextId = m.nextId + 1 := rfl

theorem find?_append_some (l₁ l₂ : List (TaskId × ToDo))
    (pred : TaskId × ToDo → Bool) (e : TaskId × ToDo)
    (h : l₁.find? pred = some e) :
    (l₁ ++ l₂).find? pred = some e := by
  induction l₁ with
  | nil => simp at h
  | cons a l ih =>
    rw [List.cons_append]
    cases hpa : pred a
    · rw [List.find?_cons_of_neg _ (by simp [hpa])] at h ⊢
      exact ih h
    · rw [List.find?_cons_of_pos _ hpa] at h ⊢
      exact h

theorem find?_append_none (l₁ l₂ : List (TaskId × ToDo))
    (pred : TaskId × ToDo → Bool) (h : l₁.find? pred = none) :
    (l₁ ++ l₂).find? pred = l₂.find? pred := by
  induction l₁ with
  | nil => rfl
  | cons a l ih =>
    rw [List.cons_append]
    cases hpa : pred a
    · rw [List.find?_cons_of_neg _ (by simp [hpa])] at h ⊢
      exact ih h
    · rw [List.find?_cons_of_pos _ hpa] at h
      exact absurd h (by simp)

theorem find?_isSome_of_mem (m : ToDoManager) (j : TaskId)
    (h : j ∈ ids m) :
    (m.todos.find? (fun p => p.1 = j)).isSome := by
  unfold ids at h
  obtain ⟨e, he, hkey⟩ := List.mem_map.mp h
  rw [List.find?_isSome]
  exact ⟨e, he, by simp [hkey]⟩

theorem getTask_appendTask_mem (m : ToDoManager) (t : ToDo) (j : TaskId)
    (h : j ∈ ids m) : getTask (appendTask m t) j = getTask m j := by
  obtain ⟨e, he⟩ := Option.isSome_iff_exists.mp (find?_isSome_of_mem m j h)
  unfold getTask
  show ((((m.todos ++ [(m.nextId, t)]).find? (fun p => p.1 = j)).map
    Prod.snd).getD defaultToDo) = _
  rw [find?_append_some _ _ _ e he, he]

theorem getTask_appendTask_self (m : ToDoManager) (t : ToDo)
    (h : m.nextId ∉ ids m) : getTask (appendTask m t) m.nextId = t := by
  have hnone : m.todos.find? (fun p => p.1 = m.nextId) = none := by
    rw [List.find?_eq_none]
    intro x hx
    simp only [decide_eq_true_eq]
    intro hkey
    exact h (by unfold ids; exact List.mem_map.mpr ⟨x, hx, hkey⟩)
  unfold getTask
  show ((((m.todos ++ [(m.nextId, t)]).find? (fun p => p.1 = m.nextId)).map
    Prod.snd).getD defaultToDo) = _
  rw [find?_append_none _ _ _ hnone]
  simp

theorem getTask_appendTask_ne (m : ToDoManager) (t : ToDo) (j : TaskId)
    (hjk : j ≠ m.nextId) : getTask (appendTask m t) j = getTask m j := by
  by_cases hj : j ∈ ids m
  · exact getTask_appendTask_mem m t j hj
  · have : j ∉ ids (appendTask m t) := by
      rw [ids_appendTask]
      simp [hj, hjk]
    rw [getTask_not_mem _ _ this, getTask_not_mem m j hj]

theorem all_done_congr (s s' : ToDoManager) :
    ∀ (L : List TaskId),
      (∀ d ∈ L, (getTask s' d).done = (getTask s d).done) →
      L.all (fun d => (getTask s' d).done)
        = L.all (fun d => (getTask s d).done) := by
  intro L
  induction L with
  | nil => intro _; rfl
  | cons a L ih =>
    intro h
    simp only [List.all_cons]
    rw [h a (List.mem_cons_self a L),
      ih (fun d hd => h d (List.mem_cons_of_mem a hd))]

/-- The two corrective conditions at `j` read only the task stored at `j`
(`done`, `is_project`, `dependencies`) and the `done` flags of its
dependencies. -/
theorem cond_eq_of_fields (s s' : ToDoManager) (j : TaskId)
    (h1 : (getTask s' j).done = (getTask s j).done)
    (h2 : (getTask s' j).is_project = (getTask s j).is_project)
    (h3 : (getTask s' j).dependencies = (getTask s j).dependencies)
    (hd : ∀ d ∈ (getTask s j).dependencies,
      (getTask s' d).done = (getTask s d).done) :
    cond1 s' j = cond1 s j ∧ cond2 s' j = cond2 s j := by
  have hu : is_unblocked s' j = is_unblocked s j := by
    unfold is_unblocked
    rw [h3]
    exact all_done_congr s s' _ hd
  constructor
  · unfold cond1
    rw [h1, hu]
  · unfold cond2
    rw [h1, h2, hu]

theorem appendTask_fresh (m : ToDoManager) (t : ToDo) (hfresh : Fresh m)
    (hdeps : t.dependencies = []) : Fresh (appendTask m t) := by
  constructor
  · intro i hi
    rw [ids_appendTask] at hi
    rw [nextId_appendTask]
    rcases List.mem_append.mp hi with hi' | hi'
    · exact Nat.lt_succ_of_lt (hfresh.1 i hi')
    · have heq : i = m.nextId := by simpa using hi'
      rw [heq]
      exact Nat.lt_succ_self m.nextId
  · intro i hi d hd
    rw [ids_appendTask] at hi
    rw [nextId_appendTask]
    rcases List.mem_append.mp hi with hi' | hi'
    · have hne : i ≠ m.nextId := Nat.ne_of_lt (hfresh.1 i hi')
      rw [getTask_appendTask_ne m t i hne] at hd
      exact Nat.lt_succ_of_lt (hfresh.2 i hi' d hd)
    · have heq : i = m.nextId := by simpa using hi'
      subst heq
      rw [getTask_appendTask_self m t (fresh_notmem m hfresh), hdeps] at hd
      exact absurd hd (List.not_mem_nil d)

theorem appendTask_consistent (m : ToDoManager) (t : ToDo)
    (hfresh : Fresh m) (hcons : ∀ j ∈ ids m, consistentAt m j)
    (hdeps : t.dependencies = []) (hproj : t.is_project = false) :
    ∀ j ∈ ids (appendTask m t), consistentAt (appendTask m t) j := by
  intro j hj
  rw [ids_appendTask] at hj
  rcases List.mem_append.mp hj with hj' | hj'
  · have hne : j ≠ m.nextId := Nat.ne_of_lt (hfresh.1 j hj')
    have hjt : getTask (appendTask m t) j = getTask m j :=
      getTask_appendTask_ne m t j hne
    have hd : ∀ d ∈ (getTask m j).dependencies,
        (getTask (appendTask m t) d).done = (getTask m d).done := by
      intro d hdm
      rw [getTask_appendTask_ne m t d (Nat.ne_of_lt (hfresh.2 j hj' d hdm))]
    obtain ⟨hc1, hc2⟩ := cond_eq_of_fields m (appendTask m t) j
      (by rw [hjt]) (by rw [hjt]) (by rw [hjt]) hd
    obtain ⟨ho1, ho2⟩ := hcons j hj'
    exact ⟨by rw [hc1, ho1], by rw [hc2, ho2]⟩
  · have heq : j = m.nextId := by simpa using hj'
    subst heq
    have hself : getTask (appendTask m t) m.nextId = t :=
      getTask_appendTask_self m t (fresh_notmem m hfresh)
    constructor
    · unfold cond1
      have hu : is_unblocked (appendTask m t) m.nextId = true := by
        unfold is_unblocked
        rw [hself, hdeps]
        rfl
      rw [hu]
      simp
    · unfold cond2
      rw [hself, hproj]
      simp

/-- On a fresh, reconciled state, inserting a dependency-free non-project
task is a pure append: the duplicate check cannot fire and the embedded
reconciliation pass is the identity. -/
theorem add_todo_new_fresh (today : Int) (m : ToDoManager) (t : ToDo)
    (hfresh : Fresh m) (hcons : ∀ j ∈ ids m, consistentAt m j)
    (hdeps : t.dependencies = []) (hproj : t.is_project = false) :
    add_todo_new today m t = (appendTask m t, m.nextId) := by
  have hany : ¬(m.todos.any
      (fun p => p.1 = m.nextId && p.2.title = t.title) = true) := by
    rw [List.any_eq_true]
    rintro ⟨p, hp, hcond⟩
    rw [Bool.and_eq_true] at hcond
    have hkey : p.1 = m.nextId := by simpa using hcond.1
    have hpm : p.1 ∈ ids m := by
      unfold ids
      exact List.mem_map.mpr ⟨p, hp, rfl⟩
    rw [hkey] at hpm
    exact fresh_notmem m hfresh hpm
  show (if m.todos.any (fun p => p.1 = m.nextId && p.2.title = t.title)
        = true then (m, m.nextId)
      else (update_todo_states today (appendTask m t), m.nextId))
    = (appendTask m t, m.nextId)
  rw [if_neg hany, update_todo_states_noop today (appendTask m t)
    (appendTask_consistent m t hfresh hcons hdeps hproj)]

theorem fresh_setTask (m : ToDoManager) (i : TaskId) (t : ToDo)
    (hfresh : Fresh m) (ht : ∀ d ∈ t.dependencies, d < m.nextId) :
    Fresh (setTask m i t) := by
  constructor
  · intro j hj
    rw [ids_setTask] at hj
    rw [nextId_setTask]
    exact hfresh.1 j hj
  · intro j hj d hd
    rw [ids_setTask] at hj
    rw [nextId_setTask]
    by_cases hji : j = i
    · subst hji
      rw [getTask_setTask_eq m j t hj] at hd
      exact ht d hd
    · rw [getTask_setTask_ne m i t j hji] at hd
      exact hfresh.2 j hj d hd

/-- Replacing the task at `i` without changing its `done` flag preserves
consistency everywhere else; consistency at `i` itself is supplied by the
caller. -/
theorem consistent_setTask (m : ToDoManager) (i : TaskId) (t : ToDo)
    (hmem : i ∈ ids m)
    (hdone : t.done = (getTask m i).done)
    (hcons : ∀ j ∈ ids m, consistentAt m j)
    (hci : consistentAt (setTask m i t) i) :
    ∀ j ∈ ids (setTask m i t), consistentAt (setTask m i t) j := by
  intro j hj
  rw [ids_setTask] at hj
  by_cases hji : j = i
  · subst hji
    exact hci
  · have hjt : getTask (setTask m i t) j = getTask m j :=
      getTask_setTask_ne m i t j hji
    have hd : ∀ d ∈ (getTask m j).dependencies,
        (getTask (setTask m i t) d).done = (getTask m d).done := by
      intro d hdm
      by_cases hdi : d = i
      · subst hdi
        rw [getTask_setTask_eq m d t hmem, hdone]
      · rw [getTask_setTask_ne m i t d hdi]
    obtain ⟨hc1, hc2⟩ := cond_eq_of_fields m (setTask m i t) j
      (by rw [hjt]) (by rw [hjt]) (by rw [hjt]) hd
    obtain ⟨ho1, ho2⟩ := hcons j hj
    exact ⟨by rw [hc1, ho1], by rw [hc2, ho2]⟩

theorem depends_on_noDeps (m : ToDoManager) (s o : TaskId)
    (h : (getTask m s).dependencies = []) : depends_on m s o = false := by
  unfold depends_on
  show (if s ∈ ([] : List TaskId) then
      dependsOnAux m o (totalDeps m + 1) [] []
    else if o ∈ (getTask m s).dependencies then true
    else dependsOnAux m o (totalDeps m + 1)
      ((getTask m s).dependencies.reverse ++ []) (s :: [])) = false
  rw [if_neg (List.not_mem_nil s), h,
    if_neg (List.not_mem_nil o)]
  rfl

/-- `add_dependency` on a fresh childless, parentless child that is not
yet a dependency of the parent succeeds and appends the edge in both
directions. -/
theorem add_dependency_fresh (m : ToDoManager) (pid sid : TaskId)
    (hne : sid ≠ pid)
    (hdeps : (getTask m sid).dependencies = [])
    (hdof : (getTask m sid).dependancy_of = [])
    (hnotin : sid ∉ (getTask m pid).dependencies) :
    add_dependency m pid sid =
      (none,
        setTask
          (setTask m pid
            { getTask m pid with
              dependencies := (getTask m pid).dependencies ++ [sid] })
          sid
          { getTask (setTask m pid
              { getTask m pid with
                dependencies := (getTask m pid).dependencies ++ [sid] })
              sid with
            dependancy_of := (getTask (setTask m pid
              { getTask m pid with
                dependencies := (getTask m pid).dependencies ++ [sid] })
              sid).dependancy_of ++ [pid] }) := by
  unfold add_dependency
  rw [if_neg hne]
  rw [if_neg (show ¬(depends_on m sid pid = true) by
    rw [depends_on_noDeps m sid pid hdeps]
    simp)]
  rw [if_neg (show ¬((getTask m sid).dependancy_of ≠ []) from
    fun hc => hc hdof)]
  rw [if_neg hnotin]

/-- The clone the source builds for a subtask template: edge lists reset,
back-reference pointed directly at the parent, deadline shifted. -/
def subClone (pid : TaskId) (deadline : Int) (sub : ToDo × Int) : ToDo :=
  { cloneTask sub.1 with dependencies := [], dependancy_of := [pid],
                         deadline := deadline + sub.2 }

/-- The clone the spec words build: plain edge-free clone with the
shifted deadline (the edge is added by `add_dependency` afterwards). -/
def subCloneS (deadline : Int) (sub : ToDo × Int) : ToDo :=
  { cloneTask sub.1 with deadline := deadline + sub.2 }

theorem genSubtasks_cons (today : Int) (pid : TaskId) (deadline : Int)
    (sub : ToDo × Int) (rest : List (ToDo × Int)) (m : ToDoManager) :
    genSubtasks today pid deadline (sub :: rest) m =
      genSubtasks today pid deadline rest
        (setTask (add_todo_new today m (subClone pid deadline sub)).1 pid
          { getTask (add_todo_new today m (subClone pid deadline sub)).1
              pid with
            dependencies :=
              (getTask (add_todo_new today m (subClone pid deadline sub)).1
                pid).dependencies
              ++ [(add_todo_new today m (subClone pid deadline sub)).2] })
  := rfl

theorem genSubtasksSanctioned_cons (today : Int) (pid : TaskId)
    (deadline : Int) (sub : ToDo × Int) (rest : List (ToDo × Int))
    (m : ToDoManager) :
    genSubtasksSanctioned today pid deadline (sub :: rest) m =
      genSubtasksSanctioned today pid deadline rest
        (add_dependency (add_todo_new today m (subCloneS deadline sub)).1
          pid (add_todo_new today m (subCloneS deadline sub)).2).2 := rfl

/-- Updating an old entry commutes with appending a fresh one. -/
theorem setTask_appendTask (m : ToDoManager) (t : ToDo) (k : TaskId)
    (X : ToDo) (hk : k ≠ m.nextId) :
    setTask (appendTask m t) k X = appendTask (setTask m k X) t := by
  show ToDoManager.mk
      ((m.todos ++ [(m.nextId, t)]).map
        (fun p => if p.1 = k then (p.1, X) else p))
      (m.nextId + 1)
    = ToDoManager.mk
      ((m.todos.map (fun p => if p.1 = k then (p.1, X) else p))
        ++ [(m.nextId, t)])
      (m.nextId + 1)
  congr 1
  rw [List.map_append]
  congr 1
  simp only [List.map_cons, List.map_nil]
  rw [if_neg (show ¬(m.nextId = k) from fun h => hk h.symm)]

/-- Overwriting the entry just appended replaces it. -/
theorem setTask_appendTask_last (b : ToDoManager) (t Y : ToDo)
    (sid : TaskId) (hsid : sid = b.nextId)
    (hlt : ∀ i ∈ ids b, i < b.nextId) :
    setTask (appendTask b t) sid Y = appendTask b Y := by
  subst hsid
  show ToDoManager.mk
      ((b.todos ++ [(b.nextId, t)]).map
        (fun p => if p.1 = b.nextId then (p.1, Y) else p))
      (b.nextId + 1)
    = ToDoManager.mk (b.todos ++ [(b.nextId, Y)]) (b.nextId + 1)
  congr 1
  rw [List.map_append]
  congr 1
  · have hpt : ∀ p ∈ b.todos,
        (if p.1 = b.nextId then (p.1, Y) else p) = p := by
      intro p hp
      rw [if_neg]
      have hpm : p.1 ∈ ids b := by
        unfold ids
        exact List.mem_map.mpr ⟨p, hp, rfl⟩
      exact Nat.ne_of_lt (hlt p.1 hpm)
    rw [List.map_congr_left hpt]
    simp
  · simp

/-- Inserting a fresh edge-free non-project clone and linking it under an
undone non-project parent preserves freshness, consistency and the
parent's flags. -/
theorem linked_state_inv (m : ToDoManager) (sc : ToDo) (pid : TaskId)
    (hfresh : Fresh m) (hcons : ∀ j ∈ ids m, consistentAt m j)
    (hpid : pid ∈ ids m)
    (hpd : (getTask m pid).done = false)
    (hpp : (getTask m pid).is_project = false)
    (hscdeps : sc.dependencies = []) (hscproj : sc.is_project = false) :
    Fresh (setTask (appendTask m sc) pid
      { getTask m pid with
        dependencies := (getTask m pid).dependencies ++ [m.nextId] }) ∧
    (∀ j ∈ ids (setTask (appendTask m sc) pid
      { getTask m pid with
        dependencies := (getTask m pid).dependencies ++ [m.nextId] }),
      consistentAt (setTask (appendTask m sc) pid
        { getTask m pid with
          dependencies := (getTask m pid).dependencies ++ [m.nextId] }) j) ∧
    pid ∈ ids (setTask (appendTask m sc) pid
      { getTask m pid with
        dependencies := (getTask m pid).dependencies ++ [m.nextId] }) ∧
    (getTask (setTask (appendTask m sc) pid
      { getTask m pid with
        dependencies := (getTask m pid).dependencies ++ [m.nextId] })
      pid).done = false ∧
    (getTask (setTask (appendTask m sc) pid
      { getTask m pid with
        dependencies := (getTask m pid).dependencies ++ [m.nextId] })
      pid).is_project = false := by
  set X : ToDo := { getTask m pid with
    dependencies := (getTask m pid).dependencies ++ [m.nextId] } with hX
  have hpidA : pid ∈ ids (appendTask m sc) := by
    rw [ids_appendTask]
    exact List.mem_append_left _ hpid
  have hgp : getTask (setTask (appendTask m sc) pid X) pid = X :=
    getTask_setTask_eq (appendTask m sc) pid X hpidA
  have hXd : X.done = (getTask m pid).done := by rw [hX]
  have hXp : X.is_project = (getTask m pid).is_project := by rw [hX]
  have hci : consistentAt (setTask (appendTask m sc) pid X) pid := by
    constructor
    · unfold cond1
      rw [hgp, hXd, hpd]
      simp
    · unfold cond2
      rw [hgp, hXp, hpp]
      simp
  refine ⟨⟨?_, ?_⟩, ?_, ?_, ?_, ?_⟩
  · intro i hi
    rw [ids_setTask, ids_appendTask] at hi
    rw [nextId_setTask, nextId_appendTask]
    rcases List.mem_append.mp hi with h | h
    · exact Nat.lt_succ_of_lt (hfresh.1 i h)
    · have heq : i = m.nextId := by simpa using h
      rw [heq]
      exact Nat.lt_succ_self m.nextId
  · intro i hi d hd
    rw [ids_setTask, ids_appendTask] at hi
    rw [nextId_setTask, nextId_appendTask]
    by_cases hip : i = pid
    · subst hip
      rw [hgp, hX] at hd
      rcases List.mem_append.mp hd with h | h
      · exact Nat.lt_succ_of_lt (hfresh.2 i hpid d h)
      · have heq : d = m.nextId := by simpa using h
        rw [heq]
        exact Nat.lt_succ_self m.nextId
    · rw [getTask_setTask_ne (appendTask m sc) pid X i hip] at hd
      rcases List.mem_append.mp hi with h | h
      · rw [getTask_appendTask_ne m sc i (Nat.ne_of_lt (hfresh.1 i h))]
          at hd
        exact Nat.lt_succ_of_lt (hfresh.2 i h d hd)
      · have heq : i = m.nextId := by simpa using h
        subst heq
        rw [getTask_appendTask_self m sc (fresh_notmem m hfresh),
          hscdeps] at hd
        exact absurd hd (List.not_mem_nil d)
  · exact consistent_setTask (appendTask m sc) pid X hpidA
      (by rw [hXd, getTask_appendTask_mem m sc pid hpid])
      (appendTask_consistent m sc hfresh hcons hscdeps hscproj) hci
  · rw [ids_setTask, ids_appendTask]
    exact List.mem_append_left _ hpid
  · rw [hgp, hXd]
    exact hpd
  · rw [hgp, hXp]
    exact hpp

/-- On a fresh reconciled state with an undone non-project parent, the
source's direct back-reference assignment and the spec's sanctioned
`add_dependency` linking build exactly the same state, and the generation
invariant survives. -/
theorem genSubtasks_main (today : Int) (pid : TaskId) (deadline : Int) :
    ∀ (tmpl : List (ToDo × Int)) (m : ToDoManager),
      Fresh m → (∀ j ∈ ids m, consistentAt m j) →
      pid ∈ ids m → (getTask m pid).done = false →
      (getTask m pid).is_project = false →
      (∀ sub ∈ tmpl, (sub.1).is_project = false) →
      genSubtasks today pid deadline tmpl m
        = genSubtasksSanctioned today pid deadline tmpl m ∧
      Fresh (genSubtasks today pid deadline tmpl m) ∧
      (∀ j ∈ ids (genSubtasks today pid deadline tmpl m),
        consistentAt (genSubtasks today pid deadline tmpl m) j) := by
  intro tmpl
  induction tmpl with
  | nil =>
    intro m hf hc _ _ _ _
    exact ⟨rfl, hf, hc⟩
  | cons sub rest ih =>
    intro m hfresh hcons hpid hpd hpp htm
    have hsp : (sub.1).is_project = false :=
      htm sub (List.mem_cons_self sub rest)
    have hpidne : pid ≠ m.nextId := Nat.ne_of_lt (hfresh.1 pid hpid)
    have hBne : m.nextId ≠ pid := Ne.symm hpidne
    rw [genSubtasks_cons, genSubtasksSanctioned_cons]
    rw [add_todo_new_fresh today m (subClone pid deadline sub) hfresh hcons
      rfl hsp]
    rw [add_todo_new_fresh today m (subCloneS deadline sub) hfresh hcons
      rfl hsp]
    dsimp only
    rw [add_dependency_fresh (appendTask m (subCloneS deadline sub)) pid
      m.nextId hBne
      (by
        rw [getTask_appendTask_self m (subCloneS deadline sub)
          (fresh_notmem m hfresh)]
        rfl)
      (by
        rw [getTask_appendTask_self m (subCloneS deadline sub)
          (fresh_notmem m hfresh)]
        rfl)
      (by
        rw [getTask_appendTask_mem m (subCloneS deadline sub) pid hpid]
        intro hmem
        exact absurd (hfresh.2 pid hpid m.nextId hmem)
          (Nat.lt_irrefl m.nextId))]
    dsimp only
    rw [getTask_appendTask_mem m (subClone pid deadline sub) pid hpid,
      getTask_appendTask_mem m (subCloneS deadline sub) pid hpid]
    set X : ToDo := { getTask m pid with
      dependencies := (getTask m pid).dependencies ++ [m.nextId] } with hX
    set Y : ToDo := { getTask (setTask (appendTask m
        (subCloneS deadline sub)) pid X) m.nextId with
      dependancy_of := (getTask (setTask (appendTask m
        (subCloneS deadline sub)) pid X) m.nextId).dependancy_of
        ++ [pid] } with hY
    have hltB : ∀ i ∈ ids (setTask m pid X),
        i < (setTask m pid X).nextId := by
      intro i hi
      rw [ids_setTask] at hi
      rw [nextId_setTask]
      exact hfresh.1 i hi
    have hYA : Y = subClone pid deadline sub := by
      rw [hY, getTask_setTask_ne (appendTask m (subCloneS deadline sub))
        pid X m.nextId hBne,
        getTask_appendTask_self m (subCloneS deadline sub)
          (fresh_notmem m hfresh)]
      rfl
    rw [setTask_appendTask m (subCloneS deadline sub) pid X hpidne]
    rw [setTask_appendTask_last (setTask m pid X)
      (subCloneS deadline sub) Y m.nextId rfl hltB]
    rw [hYA]
    rw [← setTask_appendTask m (subClone pid deadline sub) pid X hpidne]
    obtain ⟨hfS, hcS, hpS, hdS, hprS⟩ := by
      have h := linked_state_inv m (subClone pid deadline sub) pid hfresh
        hcons hpid hpd hpp rfl hsp
      rw [← hX] at h
      exact h
    exact ih (setTask (appendTask m (subClone pid deadline sub)) pid X)
      hfS hcS hpS hdS hprS
      (fun q hq => htm q (List.mem_cons_of_mem sub hq))

theorem mkToDo_ok_props (today : Int) (title category : String)
    (desc : Option String) (prio : Option Priority) (deadline : Int)
    (tags : List String) (t : ToDo)
    (h : mkToDo today title category desc prio none (some deadline) false
        none (some tags) none none false = .ok t) :
    t.dependencies = [] ∧ t.is_project = false ∧ t.done = false := by
  unfold mkToDo at h
  split_ifs at h
  all_goals
    first
      | exact Except.noConfusion h
      | (simp only [Option.getD_some] at h
         injection h with h
         subst h
         exact ⟨rfl, rfl, rfl⟩)

/-- The generation loop produces identical results whether each clone is
linked by direct back-reference assignment or through `add_dependency`,
as long as the entry state is fresh and reconciled and the templates are
not projects. -/
theorem genLoop_eq_sanctioned (today : Int) :
    ∀ (fuel : Nat) (m : ToDoManager) (bp : Blueprint) (current : Int)
      (acc : List TaskId),
      Fresh m → (∀ j ∈ ids m, consistentAt m j) →
      (∀ sub ∈ bp.template_subtasks, (sub.1).is_project = false) →
      genLoop genSubtasks today fuel m bp current acc
        = genLoop genSubtasksSanctioned today fuel m bp current acc := by
  intro fuel
  induction fuel with
  | zero => intro m bp current acc _ _ _; rfl
  | succ fuel ih =>
    intro m bp current acc hfresh hcons htm
    by_cases hcond : current + bp.interval_days ≤ today
    · rw [genLoop_succ_true genSubtasks today fuel m bp current acc hcond,
        genLoop_succ_true genSubtasksSanctioned today fuel m bp current
          acc hcond]
      rcases hmk : mkToDo today
          (formatTitle bp.title_pattern (bp.generated_todos.length + 1))
          bp.category bp.description (some bp.priority) none
          (some (current + bp.interval_days + bp.interval_days)) false none
          (some bp.tags) none none false with e | parent
      · rfl
      · dsimp only
        obtain ⟨hdeps, hproj, hdone⟩ := mkToDo_ok_props today _ bp.category
          bp.description (some bp.priority) _ bp.tags parent hmk
        rw [add_todo_new_fresh today m parent hfresh hcons hdeps hproj]
        dsimp only
        have hfA : Fresh (appendTask m parent) :=
          appendTask_fresh m parent hfresh hdeps
        have hcA := appendTask_consistent m parent hfresh hcons hdeps hproj
        have hpA : m.nextId ∈ ids (appendTask m parent) := by
          rw [ids_appendTask]
          exact List.mem_append_right _ (List.mem_singleton.mpr rfl)
        have hdA : (getTask (appendTask m parent) m.nextId).done = false := by
          rw [getTask_appendTask_self m parent (fresh_notmem m hfresh)]
          exact hdone
        have hprA : (getTask (appendTask m parent) m.nextId).is_project
            = false := by
          rw [getTask_appendTask_self m parent (fresh_notmem m hfresh)]
          exact hproj
        obtain ⟨hgeq, hgfresh, hgcons⟩ := genSubtasks_main today m.nextId
          (current + bp.interval_days + bp.interval_days)
          bp.template_subtasks (appendTask m parent) hfA hcA hpA hdA hprA
          htm
        rw [← hgeq]
        exact ih _ { bp with generated_todos :=
            bp.generated_todos ++ [m.nextId] } (current + bp.interval_days)
          (acc ++ [m.nextId]) hgfresh hgcons htm
    · rw [genLoop_succ_false genSubtasks today fuel m bp current acc hcond,
        genLoop_succ_false genSubtasksSanctioned today fuel m bp current
          acc hcond]

/-- The cursor/return bookkeeping after the generation loop. -/
def genFinish (r : Option PyErr × ToDoManager × Blueprint × Int ×
    List TaskId) : Option PyErr × ToDoManager × Blueprint × List TaskId :=
  if r.2.2.2.2 ≠ [] ∧ r.1 = none then
    (r.1, r.2.1, { r.2.2.1 with last_generated_date := some r.2.2.2.1 },
      r.2.2.2.2)
  else (r.1, r.2.1, r.2.2.1, r.2.2.2.2)

theorem genDueTasksWith_congr (sg sg' : Int → TaskId → Int →
    List (ToDo × Int) → ToDoManager → ToDoManager) (m : ToDoManager)
    (bp : Blueprint) (today : Int)
    (h : genLoop sg today
        (genFuel (bp.last_generated_date.getD
          (bp.start_date - bp.interval_days)) today) m bp
        (bp.last_generated_date.getD (bp.start_date - bp.interval_days)) []
      = genLoop sg' today
        (genFuel (bp.last_generated_date.getD
          (bp.start_date - bp.interval_days)) today) m bp
        (bp.last_generated_date.getD (bp.start_date - bp.interval_days))
        []) :
    genDueTasksWith sg m bp today = genDueTasksWith sg' m bp today := by
  unfold genDueTasksWith
  by_cases hg : (!bp.active || today < bp.start_date) = true
  · rw [if_pos hg, if_pos hg]
  · rw [if_neg hg, if_neg hg]
    show genFinish (genLoop sg today
        (genFuel (bp.last_generated_date.getD
          (bp.start_date - bp.interval_days)) today) m bp
        (bp.last_generated_date.getD (bp.start_date - bp.interval_days))
        [])
      = genFinish (genLoop sg' today
        (genFuel (bp.last_generated_date.getD
          (bp.start_date - bp.interval_days)) today) m bp
        (bp.last_generated_date.getD (bp.start_date - bp.interval_days))
        [])
    rw [h]

/-- C7: on a fresh, reconciled collection (id counter above every stored
id and dependency entry, no task triggering a corrective condition) and
for non-project subtask templates, each occurrence generated by
`generate_due_tasks` clones each template edge-free, shifts its deadline
by the offset from the parent's deadline, inserts it, and yields exactly
the state the sanctioned `add_dependency` linking produces: the direct
back-reference assignment is extensionally equal to inserting the edge
through `add_dependency`, whose checks all pass for the fresh clone
(`ToDo.clone` itself is modelled from the spec as an edge-free copy, its
definition being absent from the sources). -/
theorem c7_generation_uses_sanctioned_linking (m : ToDoManager)
    (bp : Blueprint) (today : Int)
    (hfresh : Fresh m)
    (hcons : ∀ j ∈ ids m, consistentAt m j)
    (htm : ∀ sub ∈ bp.template_subtasks, (sub.1).is_project = false)
    (hne : bp.template_subtasks ≠ []) :
    generate_due_tasks m bp today
      = generate_due_tasks_sanctioned m bp today := by
  unfold generate_due_tasks generate_due_tasks_sanctioned
  exact genDueTasksWith_congr genSubtasks genSubtasksSanctioned m bp today
    (genLoop_eq_sanctioned today _ m bp _ [] hfresh hcons htm)

def mC7 : ToDoManager := { todos := [], nextId := 0 }

def bpC7 : Blueprint :=
  { title_pattern := "Chore {n}", category := "Life", interval_days := 7,
    start_date := 0, end_date := none, priority := ⟨"normal", 3⟩,
    description := none, tags := [],
    template_subtasks := [(defaultToDo, 2)], generated_todos := [],
    last_generated_date := none, active := true }

theorem c7_generation_uses_sanctioned_linking_witness :
    (Fresh mC7 ∧ (∀ j ∈ ids mC7, consistentAt mC7 j) ∧
      (∀ sub ∈ bpC7.template_subtasks, (sub.1).is_project = false) ∧
      bpC7.template_subtasks ≠ []) ∧
    generate_due_tasks mC7 bpC7 8
      = generate_due_tasks_sanctioned mC7 bpC7 8 :=
  ⟨by decide,
    c7_generation_uses_sanctioned_linking mC7 bpC7 8 (by decide)
      (by decide) (by decide) (by decide)⟩
